import Mathlib

/-!
Verification of the note/entry knowledge-store core: the path resolver,
tag extraction, section parser and extract-to-note transformation.
Strings are modelled through their character lists so that every operation
computes; the file system is a partial map from paths to file contents, and
the two extraction entry points are state-passing functions returning the
updated file system together with an optional error.
-/

namespace LM

/-! ### JavaScript string primitives, modelled on character lists -/

/-- `String.trim` of JS: drop whitespace from both ends. -/
def trimChars (l : List Char) : List Char :=
  ((l.dropWhile Char.isWhitespace).reverse.dropWhile Char.isWhitespace).reverse

/-- JS `value.trim()`. -/
def jsTrim (s : String) : String := ⟨trimChars s.data⟩

/-- JS `s.startsWith(p)`. -/
def jsStartsWith (s p : String) : Bool := p.data.isPrefixOf s.data

/-- JS `s.endsWith(p)`. -/
def jsEndsWith (s p : String) : Bool := p.data.isSuffixOf s.data

/-- JS `s.slice(0, -n)`: drop the last `n` characters. -/
def jsDropRight (s : String) (n : Nat) : String := ⟨s.data.take (s.data.length - n)⟩

/-- JS `s.slice(n)`: drop the first `n` characters. -/
def jsDrop (s : String) (n : Nat) : String := ⟨s.data.drop n⟩

/-- JS `s.toLowerCase()` (the inputs here are ASCII). -/
def jsToLower (s : String) : String := ⟨s.data.map Char.toLower⟩

/-- Split a character list on `/\r?\n/`: a `\n` terminates a segment and a
`\r` immediately before it is consumed with it; a lone `\r` stays in place. -/
def splitLinesList : List Char → List (List Char)
  | [] => [[]]
  | '\r' :: '\n' :: rest => [] :: splitLinesList rest
  | '\n' :: rest => [] :: splitLinesList rest
  | c :: rest =>
    match splitLinesList rest with
    | [] => [[c]]
    | seg :: segs => (c :: seg) :: segs

/-- JS `content.split(/\r?\n/)`. -/
def splitLines (s : String) : List String := (splitLinesList s.data).map (fun l => ⟨l⟩)

/-- JS `parts.join(sep)`. -/
def joinSep (sep : String) : List String → String
  | [] => ""
  | [x] => x
  | x :: xs => x ++ sep ++ joinSep sep xs

/-- JS `lines.join("\n")`. -/
def joinLines (lines : List String) : String := joinSep "\n" lines

/-- The line of the document at 1-based position `n` (`""` out of range). -/
def lineAt (lines : List String) (n : Nat) : String := lines.getD (n - 1) ""

/-- The leading-whitespace run of a line: JS `line.match(/^\s*/)?.[0] ?? ""`. -/
def leadingWhitespace (s : String) : String := ⟨s.data.takeWhile Char.isWhitespace⟩

/-! ### Path operations (POSIX separator, as used by the store) -/

/-- The platform path separator of the model. -/
def pathSep : String := "/"

/-- Split a character list on `/`. -/
def splitSlashList : List Char → List (List Char)
  | [] => [[]]
  | '/' :: rest => [] :: splitSlashList rest
  | c :: rest =>
    match splitSlashList rest with
    | [] => [[c]]
    | seg :: segs => (c :: seg) :: segs

/-- Nonempty path segments of a slash-separated path. -/
def pathSegments (p : String) : List String :=
  ((splitSlashList p.data).map (fun l => (⟨l⟩ : String))).filter (fun s => s ≠ "")

/-- Node `path.join` for the already normalized paths the store builds. -/
def pathJoin (a b : String) : String :=
  if a = "" then b else if jsEndsWith a "/" then a ++ b else a ++ "/" ++ b

/-- Node `path.isAbsolute` (POSIX). -/
def pathIsAbsolute (p : String) : Bool := jsStartsWith p "/"

/-- Node `path.basename` (POSIX): the last nonempty segment. -/
def pathBasename (p : String) : String :=
  match (pathSegments p).getLast? with
  | some s => s
  | none => p

/-- Node `path.basename(p, ext)`: strip `ext` when it is a proper suffix. -/
def pathBasenameExt (p ext : String) : String :=
  let b := pathBasename p
  if jsEndsWith b ext ∧ b ≠ ext then jsDropRight b ext.length else b

/-- Drop the longest common leading run of two segment lists. -/
def dropCommon : List String → List String → List String × List String
  | a :: as, b :: bs => if a = b then dropCommon as bs else (a :: as, b :: bs)
  | as, bs => (as, bs)

/-- Node `path.relative` (POSIX) for normalized absolute inputs: strip the
common segments, then climb with `..` and descend into the remainder. -/
def pathRelative (src dst : String) : String :=
  let (restSrc, restDst) := dropCommon (pathSegments src) (pathSegments dst)
  joinSep "/" (List.replicate restSrc.length ".." ++ restDst)

/-! ### Store layout -/

/-- The directories that `getJournalPaths` derives from the home directory. -/
structure JournalPaths where
  journalDir : String
  notesDir : String
deriving DecidableEq, Repr

/-- `getJournalPaths`: `<home>/journal` holds entries, `<home>/journal/notes` notes. -/
def journalPathsOf (homeDir : String) : JournalPaths :=
  let journalDir := pathJoin homeDir "journal"
  { journalDir := journalDir, notesDir := pathJoin journalDir "notes" }

/-- `entryPathForDate`. -/
def entryPathForDate (paths : JournalPaths) (date : String) : String :=
  pathJoin paths.journalDir (date ++ ".md")

/-- `notePathForSlug`. -/
def notePathForSlug (paths : JournalPaths) (slug : String) : String :=
  pathJoin paths.notesDir (slug ++ ".md")

/-! ### Tag extraction -/

/-- A character admitted into a tag: `[A-Za-z0-9_-]`. -/
def isTagChar (c : Char) : Bool := c.isAlphanum || c = '_' || c = '-'

/-- `normalizeTag`: keep only `[A-Za-z0-9_-]`, lower-case the result. -/
def normalizeTag (value : String) : String :=
  ⟨(value.data.filter isTagChar).map Char.toLower⟩

/-- `readSecondLine`: line index 1 of the `/\r?\n/` split, `""` when missing. -/
def readSecondLine (content : String) : String := (splitLines content).getD 1 ""

/-- Regex scanner for `/#[A-Za-z0-9_-]+/g`: the state is `none` outside a
candidate match and `some run` (reversed) after a `#`; a maximal nonempty run
of tag characters after a `#` is emitted as a match. -/
def hashtagAux : List Char → Option (List Char) → List String
  | [], none => []
  | [], some run => if run = [] then [] else [⟨'#' :: run.reverse⟩]
  | c :: rest, none =>
    if c = '#' then hashtagAux rest (some []) else hashtagAux rest none
  | c :: rest, some run =>
    if isTagChar c then hashtagAux rest (some (c :: run))
    else
      let tail := if c = '#' then hashtagAux rest (some []) else hashtagAux rest none
      if run = [] then tail else ⟨'#' :: run.reverse⟩ :: tail

/-- All matches of `/#[A-Za-z0-9_-]+/g`, each including its leading `#`. -/
def hashtagMatches (l : List Char) : List String := hashtagAux l none

/-- Match `/^\s*tags\s*:\s*/i` and return the rest of the line, if the line
starts (case-insensitively, after whitespace) with `tags:`. -/
def tagsLineRest (line : String) : Option String :=
  let afterWs := line.data.dropWhile Char.isWhitespace
  match afterWs.map Char.toLower with
  | 't' :: 'a' :: 'g' :: 's' :: _ =>
    let afterWord := afterWs.drop 4
    let beforeColon := afterWord.dropWhile Char.isWhitespace
    match beforeColon with
    | ':' :: rest => some ⟨rest.dropWhile Char.isWhitespace⟩
    | _ => none
  | _ => none

/-- JS `stripped.replace(/[\[\],]/g, " ")`. -/
def bracketsToSpaces (s : String) : String :=
  ⟨s.data.map (fun c => if c = '[' ∨ c = ']' ∨ c = ',' then ' ' else c)⟩

/-- JS `cleaned.split(/\s+/).filter(Boolean)`. -/
def whitespaceTokens (s : String) : List String :=
  ((bracketsToSpaces s).split Char.isWhitespace).filter (fun t => t ≠ "")

/-- `fileHasTag`, applied to the document content: the wanted tag must
normalize to something nonempty and occur on line 2, either as a hashtag or
in a `tags:` list. -/
def fileHasTag (content want : String) : Bool :=
  let normalizedWant := normalizeTag want
  if normalizedWant = "" then false
  else
    let line := readSecondLine content
    (hashtagMatches line.data).any (fun tag => normalizeTag (jsDrop tag 1) = normalizedWant) ||
      match tagsLineRest line with
      | some stripped =>
        (whitespaceTokens stripped).any (fun part => normalizeTag part = normalizedWant)
      | none => false

/-! ### Section parser -/

/-- `isBlankLine`. -/
def isBlankLine (line : String) : Bool := jsTrim line = ""

/-- `isSeparatorLine`: after trimming and removing all whitespace, a run of
three or more repeated `-`, `*` or `_` characters. -/
def isSeparatorLine (line : String) : Bool :=
  let trimmed := trimChars line.data
  if trimmed = [] then false
  else
    let collapsed := trimmed.filter (fun c => !c.isWhitespace)
    if collapsed.length < 3 then false
    else
      match collapsed with
      | [] => false
      | c :: rest => (c == '-' || c == '*' || c == '_') && rest.all (fun v => v == c)

/-- A section before titles and block ends are attached. -/
structure RawSection where
  startLine : Nat
  endLine : Nat
deriving DecidableEq, Repr

/-- The `while (endLine >= startLine && isBlankLine(lines[endLine - 1])) endLine -= 1`
loop closing a section. -/
def trimBlankEnd (all : List String) (startLine : Nat) : Nat → Nat
  | 0 => 0
  | e + 1 =>
    if startLine ≤ e + 1 ∧ isBlankLine (lineAt all (e + 1)) then trimBlankEnd all startLine e
    else e + 1

/-- The scanning loop of `collectSections`: `all` is the full line list, the
list argument the remaining lines, `n` the 1-based number of its head and the
`Option Nat` the `startLine` of the currently open section. -/
def scanSections (all : List String) : List String → Nat → Option Nat → List RawSection
  | [], _, none => []
  | [], n, some s =>
    let e := trimBlankEnd all s (n - 1)
    if s ≤ e then [⟨s, e⟩] else []
  | line :: rest, n, st =>
    if isSeparatorLine line then
      match st with
      | some s =>
        let e := trimBlankEnd all s (n - 1)
        (if s ≤ e then [⟨s, e⟩] else []) ++ scanSections all rest (n + 1) none
      | none => scanSections all rest (n + 1) none
    else
      match st with
      | none =>
        if isBlankLine line then scanSections all rest (n + 1) none
        else scanSections all rest (n + 1) (some n)
      | some s => scanSections all rest (n + 1) (some s)

/-- The `while (scanLine <= lines.length && isBlankLine(...)) scanLine += 1`
loop: first 1-based position at or after `n` whose line is not blank, walking
the given suffix of the document. -/
def skipBlanks : List String → Nat → Nat
  | [], n => n
  | l :: rest, n => if isBlankLine l then skipBlanks rest (n + 1) else n

/-- `blockEndLine` of a section ending at `e`: the next separator when only
blank lines intervene, otherwise `e` itself. -/
def blockEndLineFor (all : List String) (e : Nat) : Nat :=
  let scanLine := skipBlanks (all.drop e) (e + 1)
  if scanLine ≤ all.length ∧ isSeparatorLine (lineAt all scanLine) then scanLine else e

/-- The first non-blank line of `[s, e]`, trimmed, else the placeholder. -/
def titleFor (all : List String) (s e : Nat) : String :=
  match ((all.drop (s - 1)).take (e + 1 - s)).find? (fun l => !isBlankLine l) with
  | some l => jsTrim l
  | none => "(empty section)"

/-- A parsed document section. -/
structure Section where
  index : Nat
  startLine : Nat
  endLine : Nat
  blockEndLine : Nat
  title : String
  preview : String
deriving DecidableEq, Repr

/-- `collectSections`. -/
def collectSections (content : String) : List Section :=
  let lines := splitLines content
  let raw := scanSections lines lines 1 none
  raw.enum.map fun p =>
    let blockEnd := blockEndLineFor lines p.2.endLine
    { index := p.1 + 1
      startLine := p.2.startLine
      endLine := p.2.endLine
      blockEndLine := blockEnd
      title := titleFor lines p.2.startLine p.2.endLine
      preview := joinLines ((lines.drop (p.2.startLine - 1)).take (blockEnd - (p.2.startLine - 1))) }

/-! ### Source resolution -/

/-- `isDateSlug`: `/^\d{4}-\d{2}-\d{2}$/`. -/
def isDateSlug (s : String) : Bool :=
  match s.data with
  | [a, b, c, d, '-', e, f, '-', g, h] =>
    a.isDigit && b.isDigit && c.isDigit && d.isDigit &&
      e.isDigit && f.isDigit && g.isDigit && h.isDigit
  | _ => false

/-- `stripMarkdownExtension`: strip a trailing `.md`, case-insensitively. -/
def stripMarkdownExtension (value : String) : String :=
  if jsEndsWith (jsToLower value) ".md" then jsDropRight value 3 else value

/-- JS `withoutExt.replace(/^notes[\\/]/, "")`. -/
def stripNotesDirOnce (w : String) : String :=
  if jsStartsWith w "notes/" ∨ jsStartsWith w "notes\\" then jsDrop w 6 else w

/-- The classification a source reference resolves to. -/
inductive SourceInfo where
  | unknown : SourceInfo
  | entry (id : String) : SourceInfo
  | note (id : String) : SourceInfo
deriving DecidableEq, Repr

/-- `resolveSource`: absolute paths are classified by containment first; then
a `notes/` lead classifies as a note, then the date pattern as an entry, and
anything else is a bare note slug. -/
def resolveSource (paths : JournalPaths) (source : String) : SourceInfo :=
  let trimmed := jsTrim source
  if trimmed = "" then .unknown
  else
    let withoutExt := stripMarkdownExtension trimmed
    let absResult : Option SourceInfo :=
      if pathIsAbsolute withoutExt then
        let relativeToNotes := pathRelative paths.notesDir withoutExt
        if ¬jsStartsWith relativeToNotes ".." then some (.note relativeToNotes)
        else
          let relativeToJournal := pathRelative paths.journalDir withoutExt
          if ¬jsStartsWith relativeToJournal ".." then
            let base := pathBasename withoutExt
            if isDateSlug base then some (.entry base) else none
          else none
      else none
    match absResult with
    | some r => r
    | none =>
      if jsStartsWith withoutExt ("notes" ++ pathSep) ∨ jsStartsWith withoutExt "notes/" then
        .note (stripNotesDirOnce withoutExt)
      else if isDateSlug withoutExt then .entry withoutExt
      else .note withoutExt

/-- `normalizeNoteSlug`. -/
def normalizeNoteSlug (paths : JournalPaths) (value : String) : String :=
  let trimmed := jsTrim value
  if trimmed = "" then ""
  else
    let withoutExt := stripMarkdownExtension trimmed
    let absResult : Option String :=
      if pathIsAbsolute withoutExt then
        let relative := pathRelative paths.notesDir withoutExt
        if ¬jsStartsWith relative ".." then some relative else none
      else none
    match absResult with
    | some r => r
    | none =>
      if jsStartsWith withoutExt ("notes" ++ pathSep) ∨ jsStartsWith withoutExt "notes/" then
        stripNotesDirOnce withoutExt
      else withoutExt

/-- A resolved source: its path on disk and its classification. -/
structure ResolvedSource where
  sourcePath : String
  sourceInfo : SourceInfo
deriving DecidableEq, Repr

/-- `resolveSourcePath`. -/
def resolveSourcePath (paths : JournalPaths) (source : String) : Option ResolvedSource :=
  match resolveSource paths source with
  | .unknown => none
  | .entry id => some ⟨entryPathForDate paths id, .entry id⟩
  | .note id => some ⟨notePathForSlug paths id, .note id⟩

/-- `appendWithSpacing(existing, addition)`: return `addition` (newline
terminated) when `existing` is empty, otherwise insert zero, one or two
newlines depending on the trailing newlines of `existing`. -/
def appendWithSpacing (existing addition : String) : String :=
  if existing = "" then addition ++ (if jsEndsWith addition "\n" then "" else "\n")
  else
    let separator :=
      if jsEndsWith existing "\n\n" then ""
      else if jsEndsWith existing "\n" then "\n"
      else "\n\n"
    existing ++ separator ++ addition ++ (if jsEndsWith addition "\n" then "" else "\n")

/-! ### File-system model and the extract engine -/

/-- The file system: a partial map from paths to file contents. -/
def FS : Type := String → Option String

/-- Overwrite (or create) the file at `p` with content `c`. -/
def fsWrite (fs : FS) (p c : String) : FS := fun q => if q = p then some c else fs q

/-- `ensureFileExists`: create the file with the standard template when it is
absent, leave it untouched otherwise. -/
def ensureFileExists (fs : FS) (filePath title : String) : FS :=
  match fs filePath with
  | some _ => fs
  | none => fsWrite fs filePath ("# " ++ title ++ "\ntags:\n\n")

/-- The failures of the extract engine. -/
inductive ExtractError where
  | missingSource
  | missingSlug
  | sourceNotFound (path : String)
  | invalidRange (startLine endLine lineCount : Nat)
  | noSectionsSelected
  | noMatchingSections
  | readFailed (path : String)
deriving DecidableEq, Repr

/-- JS `lines.splice(i, len, x)` for an in-bounds splice. -/
def splice (l : List String) (i len : Nat) (x : String) : List String :=
  l.take i ++ [x] ++ l.drop (i + len)

/-- One pending replacement of `extractSectionsToNote`. -/
structure Replacement where
  startLine : Nat
  endLine : Nat
  linkLine : String
deriving DecidableEq, Repr

/-- JS `.sort((a, b) => b.startLine - a.startLine)`: descending start lines. -/
def sortDescByStart (reps : List Replacement) : List Replacement :=
  List.insertionSort (fun a b => b.startLine ≤ a.startLine) reps

/-- Apply the replacements to the line array in descending start-line order. -/
def applyReplacements (lines : List String) (reps : List Replacement) : List String :=
  (sortDescByStart reps).foldl
    (fun acc r => splice acc (r.startLine - 1) (r.endLine - r.startLine + 1) r.linkLine) lines

/-- JS `lines.slice(startLine - 1, endLine)`. -/
def extractedRangeLines (lines : List String) (startLine endLine : Nat) : List String :=
  (lines.drop (startLine - 1)).take (endLine - (startLine - 1))

/-- The shared `Source: [<label>](<relative target>)` backlink line, empty
when the relative path is empty. -/
def sourceLinkLineFor (paths : JournalPaths) (r : ResolvedSource) : String :=
  let sourceLabel :=
    match r.sourceInfo with
    | .entry id => id
    | _ => pathBasenameExt r.sourcePath ".md"
  let sourceLinkTarget : String :=
    ⟨(pathRelative paths.notesDir r.sourcePath).data.map (fun c => if c = '\\' then '/' else c)⟩
  if sourceLinkTarget = "" then ""
  else "Source: [" ++ sourceLabel ++ "](" ++ sourceLinkTarget ++ ")"

/-- The final block both extraction entry points share: ensure the target
note exists, read it back and append `mergedText` with the spacing rule. -/
def appendToTarget (fs : FS) (targetPath targetSlug mergedText : String) :
    FS × Option ExtractError :=
  let fs2 := ensureFileExists fs targetPath targetSlug
  match fs2 targetPath with
  | none => (fs2, some (.readFailed targetPath))
  | some targetContent =>
    (fsWrite fs2 targetPath (appendWithSpacing targetContent mergedText), none)

/-- Options of `extractToNote`. -/
structure ExtractRangeOptions where
  source : String
  startLine : Nat
  endLine : Nat
  slug : String

/-- `extractToNote`: carve the line range out of the source, leave a link
line behind, and append the payload (with a backlink) to the target note. -/
def extractToNote (paths : JournalPaths) (fs : FS) (o : ExtractRangeOptions) :
    FS × Option ExtractError :=
  match resolveSourcePath paths o.source with
  | none => (fs, some .missingSource)
  | some r =>
    let targetSlug := normalizeNoteSlug paths o.slug
    if targetSlug = "" then (fs, some .missingSlug)
    else
      let sourcePath := r.sourcePath
      let targetPath := notePathForSlug paths targetSlug
      match fs sourcePath with
      | none => (fs, some (.sourceNotFound sourcePath))
      | some sourceContent =>
        let lines := splitLines sourceContent
        if o.startLine < 1 ∨ o.endLine < o.startLine ∨ lines.length < o.endLine then
          (fs, some (.invalidRange o.startLine o.endLine lines.length))
        else
          let extractedLines := extractedRangeLines lines o.startLine o.endLine
          let extractedText := joinLines extractedLines
          let indent := leadingWhitespace (extractedLines.headD "")
          let linkLine := indent ++ "[" ++ targetSlug ++ "](notes/" ++ targetSlug ++ ".md)"
          let newLines := splice lines (o.startLine - 1) (o.endLine - o.startLine + 1) linkLine
          let fs1 := fsWrite fs sourcePath (joinLines newLines)
          if jsTrim extractedText = "" then (fs1, none)
          else
            let sourceLinkLine := sourceLinkLineFor paths r
            let mergedText :=
              if sourceLinkLine = "" then extractedText
              else sourceLinkLine ++ "\n\n" ++ extractedText
            appendToTarget fs1 targetPath targetSlug mergedText

/-- Options of `extractSectionsToNote`. -/
structure ExtractSectionsOptions where
  source : String
  sections : List Nat
  slug : String

/-- JS `Array.from(new Set(requested)).sort((a, b) => a - b)`. -/
def uniqueSortedIndices (requested : List Nat) : List Nat :=
  List.insertionSort (fun a b => a ≤ b) requested.dedup

/-- JS `unique.map((index) => sections[index - 1]).filter(Boolean)`. -/
def selectedSectionsFor (sections : List Section) (unique : List Nat) : List Section :=
  unique.filterMap fun index => if index = 0 then none else sections.get? (index - 1)

/-- The replacement of one selected section: its `[startLine, blockEndLine]`
span becomes a single link line carrying the span's own indentation. -/
def sectionReplacement (lines : List String) (targetSlug : String) (sec : Section) :
    Replacement :=
  let indent := leadingWhitespace (lineAt lines sec.startLine)
  { startLine := sec.startLine
    endLine := sec.blockEndLine
    linkLine := indent ++ "[" ++ targetSlug ++ "](notes/" ++ targetSlug ++ ".md)" }

/-- JS `lines.slice(section.startLine - 1, section.blockEndLine).join("\n")`. -/
def sectionBlock (lines : List String) (sec : Section) : String :=
  joinLines ((lines.drop (sec.startLine - 1)).take (sec.blockEndLine - (sec.startLine - 1)))

/-- The extracted section bodies, blank chunks dropped, joined by blank lines. -/
def extractedSectionsText (lines : List String) (selected : List Section) : String :=
  joinSep "\n\n"
    ((selected.map (sectionBlock lines)).filter (fun chunk => jsTrim chunk ≠ ""))

/-- `extractSectionsToNote`. -/
def extractSectionsToNote (paths : JournalPaths) (fs : FS) (o : ExtractSectionsOptions) :
    FS × Option ExtractError :=
  match resolveSourcePath paths o.source with
  | none => (fs, some .missingSource)
  | some r =>
    let targetSlug := normalizeNoteSlug paths o.slug
    if targetSlug = "" then (fs, some .missingSlug)
    else
      match fs r.sourcePath with
      | none => (fs, some (.sourceNotFound r.sourcePath))
      | some sourceContent =>
        let sections := collectSections sourceContent
        let unique := uniqueSortedIndices o.sections
        if unique = [] then (fs, some .noSectionsSelected)
        else
          let selectedSections := selectedSectionsFor sections unique
          if selectedSections = [] then (fs, some .noMatchingSections)
          else
            let lines := splitLines sourceContent
            let replacements := selectedSections.map (sectionReplacement lines targetSlug)
            let newLines := applyReplacements lines replacements
            let fs1 := fsWrite fs r.sourcePath (joinLines newLines)
            let extractedText := extractedSectionsText lines selectedSections
            if jsTrim extractedText = "" then (fs1, none)
            else
              let sourceLinkLine := sourceLinkLineFor paths r
              let mergedText :=
                if sourceLinkLine = "" then extractedText
                else sourceLinkLine ++ "\n\n" ++ extractedText
              let targetPath := notePathForSlug paths targetSlug
              appendToTarget fs1 targetPath targetSlug mergedText

/-- Functional description of multi-span replacement, walking the spans in
ascending order: copy the lines before the span, emit the span's link line,
and continue after the span with the remaining spans' absolute line numbers
tracked by the `base` offset of already consumed lines. -/
def replaceSpansFrom : List Replacement → Nat → List String → List String
  | [], _, lines => lines
  | r :: rest, base, lines =>
    lines.take (r.startLine - 1 - base) ++ [r.linkLine] ++
      replaceSpansFrom rest r.endLine (lines.drop (r.endLine - base))

/-! ### Basic lemmas -/

theorem jsEndsWith_append (a b t : String) (h : jsEndsWith b t = true) :
    jsEndsWith (a ++ b) t = true := by
  simp [jsEndsWith] at h ⊢
  exact h.trans (List.suffix_append _ _)

theorem jsStartsWith_append (c x : String) : jsStartsWith (c ++ x) c = true := by
  simp [jsStartsWith]

theorem endsNewline_pad (x addition : String) :
    jsEndsWith (x ++ addition ++ (if jsEndsWith addition "\n" then "" else "\n")) "\n" =
      true := by
  by_cases h : jsEndsWith addition "\n" = true
  · rw [if_pos h, String.append_empty]
    exact jsEndsWith_append x addition "\n" h
  · rw [if_neg h]
    exact jsEndsWith_append (x ++ addition) "\n" "\n" (by decide)

/-! ### Claims about `appendWithSpacing` (C5) -/

/-- C5 counterexample: the claim promises that with an empty `existing` the
result is `addition` with exactly one trailing newline, and that in every
case at most one blank line separates `existing` from `addition`; but the
code never collapses pre-existing newlines, so `appendWithSpacing "" "x\n\n"`
keeps two trailing newlines and `appendWithSpacing "x\n\n\n" "y"` keeps two
blank lines between `x` and `y`. -/
theorem appendWithSpacing_claim_false :
    appendWithSpacing "" "x\n\n" = "x\n\n" ∧
      jsEndsWith (appendWithSpacing "" "x\n\n") "\n\n" = true ∧
      appendWithSpacing "x\n\n\n" "y" = "x\n\n\ny\n" := by
  refine ⟨by decide, by decide, by decide⟩

/-- C5 (amended): with an empty `existing` the result is `addition` with one
newline appended unless it already ends in one (pre-existing trailing
newlines are preserved, not collapsed to exactly one); otherwise the
separator is zero newlines when `existing` ends in two newlines, one when it
ends in a single newline and two otherwise, and the result in every case
ends in a newline. The separator never inserts more than one blank line, but
blank lines already at the end of `existing` are kept. -/
theorem appendWithSpacing_spec (existing addition : String) :
    (existing = "" →
      appendWithSpacing existing addition =
        addition ++ (if jsEndsWith addition "\n" then "" else "\n")) ∧
    (existing ≠ "" →
      appendWithSpacing existing addition =
        existing ++
          (if jsEndsWith existing "\n\n" then ""
            else if jsEndsWith existing "\n" then "\n" else "\n\n") ++
          addition ++ (if jsEndsWith addition "\n" then "" else "\n")) ∧
    jsEndsWith (appendWithSpacing existing addition) "\n" = true := by
  refine ⟨fun h => by simp [appendWithSpacing, h], fun h => by simp [appendWithSpacing, h], ?_⟩
  by_cases h : existing = ""
  · simpa [appendWithSpacing, h] using endsNewline_pad "" addition
  · simpa [appendWithSpacing, h, ← String.append_assoc] using
      endsNewline_pad
        (existing ++
          (if jsEndsWith existing "\n\n" then ""
            else if jsEndsWith existing "\n" then "\n" else "\n\n"))
        addition

/-- Witness for the amended C5 statement, at an empty and a nonempty `existing`. -/
theorem appendWithSpacing_spec_witness :
    appendWithSpacing "" "x" = "x\n" ∧ appendWithSpacing "a" "x" = "a\n\nx\n" :=
  ⟨by rw [(appendWithSpacing_spec "" "x").1 rfl]; decide,
   by rw [(appendWithSpacing_spec "a" "x").2.1 (by decide)]; decide⟩

/-! ### The `collectSections` scenario (C6) -/

/-- C6: on `"Intro\n\n---\n\nBody line\n"`, `collectSections` yields exactly
two sections in document order: index 1 titled `"Intro"` with
`startLine = endLine = 1`, and index 2 titled `"Body line"` with
`startLine = endLine = 5`. -/
theorem collectSections_scenario :
    (collectSections "Intro\n\n---\n\nBody line\n").map
        (fun sec => (sec.index, sec.startLine, sec.endLine, sec.title)) =
      [(1, 1, 1, "Intro"), (2, 5, 5, "Body line")] := by
  decide

/-! ### `fileHasTag` reads only line 2 (C7) -/

/-- C7: `fileHasTag` depends on the document only through its second line:
two contents agreeing on line 2 give the same answer for every queried tag,
so hashtags added or removed on any other line never change the result. -/
theorem fileHasTag_line2_only (c1 c2 t : String)
    (h : readSecondLine c1 = readSecondLine c2) :
    fileHasTag c1 t = fileHasTag c2 t := by
  simp only [fileHasTag, h]

/-- Witness for C7: two documents differing everywhere but on line 2. -/
theorem fileHasTag_line2_only_witness :
    readSecondLine "# a\ntags: ai\nx" = readSecondLine "# b\ntags: ai\n#work y" ∧
      fileHasTag "# a\ntags: ai\nx" "ai" = fileHasTag "# b\ntags: ai\n#work y" "ai" :=
  ⟨by decide, fileHasTag_line2_only "# a\ntags: ai\nx" "# b\ntags: ai\n#work y" "ai" (by decide)⟩

/-! ### `resolveSource` tries the `notes/` test before the date test (C8) -/

theorem startsWith_notes_not_absolute (w : String) (h : jsStartsWith w "notes/" = true) :
    pathIsAbsolute w = false := by
  rcases w with ⟨data⟩
  cases data with
  | nil => simp [jsStartsWith, List.isPrefixOf] at h
  | cons b bs =>
    simp only [jsStartsWith, List.isPrefixOf_iff_prefix] at h
    obtain ⟨t, ht⟩ := h
    obtain ⟨hb, -⟩ := List.cons.inj ht
    simp [pathIsAbsolute, jsStartsWith, List.isPrefixOf, ← hb]

/-- C8: whenever the trimmed, `.md`-stripped reference starts with `notes/`
(the platform separator form coincides in this POSIX model), `resolveSource`
classifies it as a note with that lead stripped — even when the remainder
matches the date pattern — and an entry classification can only happen when
that `notes/` test fails. -/
theorem resolveSource_notes_before_date (paths : JournalPaths) (s : String)
    (h : jsStartsWith (stripMarkdownExtension (jsTrim s)) ("notes" ++ pathSep) = true ∨
      jsStartsWith (stripMarkdownExtension (jsTrim s)) "notes/" = true) :
    resolveSource paths s =
      .note (stripNotesDirOnce (stripMarkdownExtension (jsTrim s))) ∧
    ∀ id, resolveSource paths s ≠ .entry id := by
  have hsep : ("notes" ++ pathSep) = "notes/" := rfl
  rw [hsep] at h
  have h' : jsStartsWith (stripMarkdownExtension (jsTrim s)) "notes/" = true := by
    rcases h with h | h <;> exact h
  have htrim : jsTrim s ≠ "" := by
    intro he
    rw [he] at h'
    simp [stripMarkdownExtension, jsToLower, jsEndsWith, jsStartsWith,
      List.isPrefixOf] at h'
  have habs : pathIsAbsolute (stripMarkdownExtension (jsTrim s)) = false :=
    startsWith_notes_not_absolute _ h'
  have hres : resolveSource paths s =
      .note (stripNotesDirOnce (stripMarkdownExtension (jsTrim s))) := by
    rw [resolveSource]
    rw [if_neg htrim]
    simp only [habs, hsep, Bool.false_eq_true, if_false]
    rw [if_pos (Or.inr h')]
  exact ⟨hres, fun id he => by rw [hres] at he; exact SourceInfo.noConfusion he⟩

/-- Witness for C8: `notes/2024-01-01` — a slug that looks like a date but
lives under `notes/` — resolves to a note, not an entry. -/
theorem resolveSource_notes_before_date_witness :
    resolveSource (journalPathsOf "/h") "notes/2024-01-01" = .note "2024-01-01" :=
  (resolveSource_notes_before_date (journalPathsOf "/h") "notes/2024-01-01"
    (Or.inr (by decide))).1

/-! ### File-system lemmas -/

theorem fsWrite_self (fs : FS) (p c : String) : fsWrite fs p c p = some c := by
  simp [fsWrite]

theorem fsWrite_other (fs : FS) (p c q : String) (h : q ≠ p) : fsWrite fs p c q = fs q := by
  simp [fsWrite, h]

theorem ensureFileExists_self (fs : FS) (p t : String) :
    ∃ c, ensureFileExists fs p t p = some c := by
  unfold ensureFileExists
  cases h : fs p with
  | some c => exact ⟨c, h⟩
  | none => exact ⟨_, fsWrite_self fs p _⟩

theorem ensureFileExists_keep (fs : FS) (p t q c : String) (h : fs q = some c) :
    ensureFileExists fs p t q = some c := by
  unfold ensureFileExists
  cases hp : fs p with
  | some _ => exact h
  | none =>
    have hq : q ≠ p := fun he => by rw [he, hp] at h; exact Option.noConfusion h
    simp only [fsWrite, if_neg hq]
    exact h

theorem ensureFileExists_other (fs : FS) (p t q : String) (h : q ≠ p) :
    ensureFileExists fs p t q = fs q := by
  unfold ensureFileExists
  cases hp : fs p with
  | some _ => rfl
  | none => exact fsWrite_other fs p _ q h

theorem appendToTarget_snd (fs : FS) (p t m : String) :
    (appendToTarget fs p t m).2 = none := by
  unfold appendToTarget
  obtain ⟨c, hc⟩ := ensureFileExists_self fs p t
  simp [hc]

theorem appendToTarget_other (fs : FS) (p t m q : String) (hq : q ≠ p) :
    (appendToTarget fs p t m).1 q = fs q := by
  unfold appendToTarget
  obtain ⟨c, hc⟩ := ensureFileExists_self fs p t
  simp only [hc]
  rw [fsWrite_other _ p _ q hq, ensureFileExists_other fs p t q hq]

theorem appendToTarget_self (fs : FS) (p t m c : String) (h : fs p = some c) :
    (appendToTarget fs p t m).1 p = some (appendWithSpacing c m) := by
  unfold appendToTarget
  have he := ensureFileExists_keep fs p t p c h
  simp only [he]
  exact fsWrite_self _ p _

/-! ### Validation failures abort before any write (C2) -/

theorem extractToNote_cases (paths : JournalPaths) (fs : FS) (o : ExtractRangeOptions) :
    (extractToNote paths fs o).2 = none ∨ (extractToNote paths fs o).1 = fs := by
  rcases hr : resolveSourcePath paths o.source with - | r
  · right; simp [extractToNote, hr]
  · by_cases hs : normalizeNoteSlug paths o.slug = ""
    · right; simp [extractToNote, hr, hs]
    · rcases hc : fs r.sourcePath with - | content
      · right; simp [extractToNote, hr, hs, hc]
      · by_cases hrange : o.startLine = 0 ∨ o.endLine < o.startLine ∨
            (splitLines content).length < o.endLine
        · right; simp [extractToNote, hr, hs, hc, hrange]
        · by_cases hblank : jsTrim (joinLines (extractedRangeLines (splitLines content)
              o.startLine o.endLine)) = ""
          · left; simp [extractToNote, hr, hs, hc, hrange, hblank]
          · left; simp [extractToNote, hr, hs, hc, hrange, hblank, appendToTarget_snd]

theorem extractSectionsToNote_cases (paths : JournalPaths) (fs : FS)
    (o : ExtractSectionsOptions) :
    (extractSectionsToNote paths fs o).2 = none ∨ (extractSectionsToNote paths fs o).1 = fs := by
  rcases hr : resolveSourcePath paths o.source with - | r
  · right; simp [extractSectionsToNote, hr]
  · by_cases hs : normalizeNoteSlug paths o.slug = ""
    · right; simp [extractSectionsToNote, hr, hs]
    · rcases hc : fs r.sourcePath with - | content
      · right; simp [extractSectionsToNote, hr, hs, hc]
      · by_cases hu : uniqueSortedIndices o.sections = []
        · right; simp [extractSectionsToNote, hr, hs, hc, hu]
        · by_cases hsel : selectedSectionsFor (collectSections content)
              (uniqueSortedIndices o.sections) = []
          · right; simp [extractSectionsToNote, hr, hs, hc, hu, hsel]
          · by_cases hblank : jsTrim (extractedSectionsText (splitLines content)
                (selectedSectionsFor (collectSections content)
                  (uniqueSortedIndices o.sections))) = ""
            · left; simp [extractSectionsToNote, hr, hs, hc, hu, hsel, hblank]
            · left
              simp [extractSectionsToNote, hr, hs, hc, hu, hsel, hblank, appendToTarget_snd]

/-- C2: whenever `extractToNote` or `extractSectionsToNote` reports a
failure — unresolved source, missing slug, source not found, invalid range,
no sections selected or none matching — the returned file system is exactly
the input one: neither the source nor the target file has been written. -/
theorem extract_failure_no_write (paths : JournalPaths) (fs : FS)
    (o : ExtractRangeOptions) (o2 : ExtractSectionsOptions) :
    (∀ e, (extractToNote paths fs o).2 = some e → (extractToNote paths fs o).1 = fs) ∧
    (∀ e, (extractSectionsToNote paths fs o2).2 = some e →
      (extractSectionsToNote paths fs o2).1 = fs) := by
  constructor
  · intro e he
    rcases extractToNote_cases paths fs o with h | h
    · rw [h] at he; exact Option.noConfusion he
    · exact h
  · intro e he
    rcases extractSectionsToNote_cases paths fs o2 with h | h
    · rw [h] at he; exact Option.noConfusion he
    · exact h

/-- The file system of the C2 witness: only the note `x` exists. -/
def fsOnlyX : FS := fun q => if q = "/h/journal/notes/x.md" then some "A\n" else none

/-- Witness for C2: a missing source fails `extractToNote`, an empty index
selection fails `extractSectionsToNote`, and both leave the file system
untouched. -/
theorem extract_failure_no_write_witness :
    (extractToNote (journalPathsOf "/h") (fun _ => none) ⟨"x", 1, 1, "y"⟩).2 =
        some (.sourceNotFound "/h/journal/notes/x.md") ∧
      (extractToNote (journalPathsOf "/h") (fun _ => none) ⟨"x", 1, 1, "y"⟩).1 =
        (fun _ => none) ∧
      (extractSectionsToNote (journalPathsOf "/h") fsOnlyX ⟨"x", [], "y"⟩).2 =
        some .noSectionsSelected ∧
      (extractSectionsToNote (journalPathsOf "/h") fsOnlyX ⟨"x", [], "y"⟩).1 = fsOnlyX := by
  refine ⟨by decide, ?_, by decide, ?_⟩
  · exact (extract_failure_no_write (journalPathsOf "/h") (fun _ => none)
      ⟨"x", 1, 1, "y"⟩ ⟨"x", [], "y"⟩).1 (.sourceNotFound "/h/journal/notes/x.md") (by decide)
  · exact (extract_failure_no_write (journalPathsOf "/h") fsOnlyX
      ⟨"x", 1, 1, "y"⟩ ⟨"x", [], "y"⟩).2 .noSectionsSelected (by decide)

/-! ### Blank payloads write nothing to the target (C4) -/

/-- The C4 counterexample file system: a single one-line entry (whose split
has a trailing empty line) and no other file. -/
def fsBlankPayload : FS :=
  fun q => if q = "/h/journal/2024-01-01.md" then some "A\n" else none

/-- C4 counterexample: extracting only the trailing empty line — an entirely
blank payload — succeeds, yet the absent target note is NOT created: the
code reaches `ensureFileExists` only inside the non-blank branch, while the
claim says the target is still created with the standard template. -/
theorem blank_payload_target_not_created :
    (extractToNote (journalPathsOf "/h") fsBlankPayload ⟨"2024-01-01", 2, 2, "note1"⟩).2 =
        none ∧
      (extractToNote (journalPathsOf "/h") fsBlankPayload
          ⟨"2024-01-01", 2, 2, "note1"⟩).1 "/h/journal/notes/note1.md" = none :=
  ⟨by decide, by decide⟩

/-- C4 (amended): when the extracted payload is entirely blank, the
extraction writes nothing to the target at all — the target note is not
created when absent, nothing is appended and no backlink is added; only the
source file is rewritten. -/
theorem blank_payload_writes_only_source (paths : JournalPaths) (fs : FS)
    (o : ExtractRangeOptions) (o2 : ExtractSectionsOptions) :
    (∀ r content, resolveSourcePath paths o.source = some r →
      fs r.sourcePath = some content →
      jsTrim (joinLines (extractedRangeLines (splitLines content)
        o.startLine o.endLine)) = "" →
      ∀ q, q ≠ r.sourcePath → (extractToNote paths fs o).1 q = fs q) ∧
    (∀ r content, resolveSourcePath paths o2.source = some r →
      fs r.sourcePath = some content →
      jsTrim (extractedSectionsText (splitLines content)
        (selectedSectionsFor (collectSections content)
          (uniqueSortedIndices o2.sections))) = "" →
      ∀ q, q ≠ r.sourcePath → (extractSectionsToNote paths fs o2).1 q = fs q) := by
  constructor
  · intro r content hr hc hblank q hq
    by_cases hs : normalizeNoteSlug paths o.slug = ""
    · simp [extractToNote, hr, hs]
    · by_cases hrange : o.startLine = 0 ∨ o.endLine < o.startLine ∨
          (splitLines content).length < o.endLine
      · simp [extractToNote, hr, hs, hc, hrange]
      · simp only [extractToNote, hr, hs, hc, hrange, if_neg, if_false, ite_false,
          if_true, hblank, if_pos]
        simp [hblank, hrange, fsWrite_other _ _ _ q hq]
  · intro r content hr hc hblank q hq
    by_cases hs : normalizeNoteSlug paths o2.slug = ""
    · simp [extractSectionsToNote, hr, hs]
    · by_cases hu : uniqueSortedIndices o2.sections = []
      · simp [extractSectionsToNote, hr, hs, hc, hu]
      · by_cases hsel : selectedSectionsFor (collectSections content)
            (uniqueSortedIndices o2.sections) = []
        · simp [extractSectionsToNote, hr, hs, hc, hu, hsel]
        · simp [extractSectionsToNote, hr, hs, hc, hu, hsel, hblank,
            fsWrite_other _ _ _ q hq]

/-- Witness for the amended C4: the blank extraction of the counterexample
leaves the absent target exactly as it was. -/
theorem blank_payload_writes_only_source_witness :
    (extractToNote (journalPathsOf "/h") fsBlankPayload ⟨"2024-01-01", 2, 2, "note1"⟩).1
        "/h/journal/notes/note1.md" = fsBlankPayload "/h/journal/notes/note1.md" :=
  (blank_payload_writes_only_source (journalPathsOf "/h") fsBlankPayload
      ⟨"2024-01-01", 2, 2, "note1"⟩ ⟨"2024-01-01", [], "note1"⟩).1
    ⟨"/h/journal/2024-01-01.md", .entry "2024-01-01"⟩ "A\n" (by decide) (by decide)
    (by decide) "/h/journal/notes/note1.md" (by decide)

/-! ### Writes are append-only away from the source (C9) -/

theorem jsStartsWith_refl (c : String) : jsStartsWith c c = true := by
  simp [jsStartsWith, List.isPrefixOf_iff_prefix]

theorem appendWithSpacing_keeps_existing (c m : String) :
    jsStartsWith (appendWithSpacing c m) c = true := by
  unfold appendWithSpacing
  by_cases h : c = ""
  · simp [h, jsStartsWith, List.isPrefixOf]
  · simp [h, jsStartsWith, List.isPrefixOf_iff_prefix, List.append_assoc]

theorem appendToTarget_keeps (fs : FS) (p t m q c : String) (h : fs q = some c) :
    ∃ c', (appendToTarget fs p t m).1 q = some c' ∧ jsStartsWith c' c = true := by
  by_cases hq : q = p
  · subst hq
    exact ⟨appendWithSpacing c m, appendToTarget_self fs q t m c h,
      appendWithSpacing_keeps_existing c m⟩
  · exact ⟨c, by rw [appendToTarget_other fs p t m q hq]; exact h, jsStartsWith_refl c⟩

/-- C9: every write this core performs on an already existing document other
than the resolved source keeps the old content as a prefix of the new one:
`ensureFileExists` never overwrites an existing file, and both extraction
entry points only ever extend the target through `appendWithSpacing`; only
the source file is rewritten in place. -/
theorem writes_append_only (paths : JournalPaths) (fs : FS) (o : ExtractRangeOptions)
    (o2 : ExtractSectionsOptions) (p t q c : String) :
    (fs q = some c → ensureFileExists fs p t q = some c) ∧
    (∀ r, resolveSourcePath paths o.source = some r → q ≠ r.sourcePath →
      fs q = some c → ∃ c', (extractToNote paths fs o).1 q = some c' ∧
        jsStartsWith c' c = true) ∧
    (∀ r, resolveSourcePath paths o2.source = some r → q ≠ r.sourcePath →
      fs q = some c → ∃ c', (extractSectionsToNote paths fs o2).1 q = some c' ∧
        jsStartsWith c' c = true) := by
  refine ⟨fun h => ensureFileExists_keep fs p t q c h, ?_, ?_⟩
  · intro r hr hq h
    by_cases hs : normalizeNoteSlug paths o.slug = ""
    · exact ⟨c, by simp [extractToNote, hr, hs, h], jsStartsWith_refl c⟩
    · rcases hc : fs r.sourcePath with - | content
      · exact ⟨c, by simp [extractToNote, hr, hs, hc, h], jsStartsWith_refl c⟩
      · by_cases hrange : o.startLine = 0 ∨ o.endLine < o.startLine ∨
            (splitLines content).length < o.endLine
        · exact ⟨c, by simp [extractToNote, hr, hs, hc, hrange, h], jsStartsWith_refl c⟩
        · by_cases hblank : jsTrim (joinLines (extractedRangeLines (splitLines content)
              o.startLine o.endLine)) = ""
          · exact ⟨c, by simp [extractToNote, hr, hs, hc, hrange, hblank,
              fsWrite_other _ _ _ q hq, h], jsStartsWith_refl c⟩
          · have h1 : fsWrite fs r.sourcePath
                (joinLines (splice (splitLines content) (o.startLine - 1)
                  (o.endLine - o.startLine + 1)
                  (leadingWhitespace ((extractedRangeLines (splitLines content)
                      o.startLine o.endLine).headD "") ++
                    "[" ++ normalizeNoteSlug paths o.slug ++ "](notes/" ++
                    normalizeNoteSlug paths o.slug ++ ".md)"))) q = some c := by
              rw [fsWrite_other _ _ _ q hq]; exact h
            obtain ⟨c', hc', hpre⟩ := appendToTarget_keeps _
              (notePathForSlug paths (normalizeNoteSlug paths o.slug))
              (normalizeNoteSlug paths o.slug) _ q c h1
            refine ⟨c', ?_, hpre⟩
            simpa [extractToNote, hr, hs, hc, hrange, hblank] using hc'
  · intro r hr hq h
    by_cases hs : normalizeNoteSlug paths o2.slug = ""
    · exact ⟨c, by simp [extractSectionsToNote, hr, hs, h], jsStartsWith_refl c⟩
    · rcases hc : fs r.sourcePath with - | content
      · exact ⟨c, by simp [extractSectionsToNote, hr, hs, hc, h], jsStartsWith_refl c⟩
      · by_cases hu : uniqueSortedIndices o2.sections = []
        · exact ⟨c, by simp [extractSectionsToNote, hr, hs, hc, hu, h], jsStartsWith_refl c⟩
        · by_cases hsel : selectedSectionsFor (collectSections content)
              (uniqueSortedIndices o2.sections) = []
          · exact ⟨c, by simp [extractSectionsToNote, hr, hs, hc, hu, hsel, h],
              jsStartsWith_refl c⟩
          · by_cases hblank : jsTrim (extractedSectionsText (splitLines content)
                (selectedSectionsFor (collectSections content)
                  (uniqueSortedIndices o2.sections))) = ""
            · exact ⟨c, by simp [extractSectionsToNote, hr, hs, hc, hu, hsel, hblank,
                fsWrite_other _ _ _ q hq, h], jsStartsWith_refl c⟩
            · have h1 : fsWrite fs r.sourcePath
                  (joinLines (applyReplacements (splitLines content)
                    ((selectedSectionsFor (collectSections content)
                        (uniqueSortedIndices o2.sections)).map
                      (sectionReplacement (splitLines content)
                        (normalizeNoteSlug paths o2.slug))))) q = some c := by
                rw [fsWrite_other _ _ _ q hq]; exact h
              obtain ⟨c', hc', hpre⟩ := appendToTarget_keeps _
                (notePathForSlug paths (normalizeNoteSlug paths o2.slug))
                (normalizeNoteSlug paths o2.slug) _ q c h1
              refine ⟨c', ?_, hpre⟩
              simpa [extractSectionsToNote, hr, hs, hc, hu, hsel, hblank] using hc'

/-- The C9 witness file system: an entry and an existing target note. -/
def fsWithTarget : FS := fun q =>
  if q = "/h/journal/2024-01-01.md" then some "A\nB\n"
  else if q = "/h/journal/notes/note1.md" then some "T" else none

/-- Witness for C9: extracting a non-blank line into the existing target
`note1` keeps the old target content `"T"` as a prefix. -/
theorem writes_append_only_witness :
    ∃ c', (extractToNote (journalPathsOf "/h") fsWithTarget
        ⟨"2024-01-01", 1, 1, "note1"⟩).1 "/h/journal/notes/note1.md" = some c' ∧
      jsStartsWith c' "T" = true :=
  (writes_append_only (journalPathsOf "/h") fsWithTarget ⟨"2024-01-01", 1, 1, "note1"⟩
      ⟨"2024-01-01", [1], "note1"⟩ "" "" "/h/journal/notes/note1.md" "T").2.1
    ⟨"/h/journal/2024-01-01.md", .entry "2024-01-01"⟩ (by decide) (by decide) (by decide)

/-! ### Line counting and the trailing empty line (C10) -/

theorem splitLinesList_ne_nil (l : List Char) : splitLinesList l ≠ [] := by
  rw [splitLinesList.eq_def]
  split
  · simp
  · simp
  · simp
  · split <;> simp

theorem splitLinesList_cons_generic (c : Char) (rest : List Char)
    (hnc : ∀ rest1, c = '\r' → rest = '\n' :: rest1 → False) (hnn : ¬c = '\n') :
    splitLinesList (c :: rest) =
      match splitLinesList rest with
      | [] => [[c]]
      | seg :: segs => (c :: seg) :: segs := by
  rw [splitLinesList.eq_def]
  split
  · rename_i heq; exact absurd heq (by simp)
  · rename_i r1 heq
    obtain ⟨h1, h2⟩ := List.cons.inj heq
    exact (hnc r1 h1 h2).elim
  · rename_i heq
    obtain ⟨h1, -⟩ := List.cons.inj heq
    exact absurd h1 hnn
  · rename_i c' rest' hne1 hne2 heq
    obtain ⟨h1, h2⟩ := List.cons.inj heq
    subst h1; subst h2; rfl

theorem splitLinesList_length2 (l : List Char) (h : '\n' ∈ l) :
    2 ≤ (splitLinesList l).length := by
  induction l using splitLinesList.induct with
  | case1 => simp at h
  | case2 rest ih =>
    have h1 : 0 < (splitLinesList rest).length :=
      List.length_pos.mpr (splitLinesList_ne_nil rest)
    simp only [splitLinesList, List.length_cons]
    omega
  | case3 rest ih =>
    have h1 : 0 < (splitLinesList rest).length :=
      List.length_pos.mpr (splitLinesList_ne_nil rest)
    simp only [splitLinesList, List.length_cons]
    omega
  | case4 c rest hnc hnn hnil ih => exact absurd hnil (splitLinesList_ne_nil rest)
  | case5 c rest hnc hnn seg segs hsegs ih =>
    have hmem : '\n' ∈ rest := by
      rcases List.mem_cons.mp h with h1 | h1
      · exact absurd h1.symm hnn
      · exact h1
    have h2 := ih hmem
    rw [splitLinesList_cons_generic c rest hnc hnn, hsegs]
    rw [hsegs] at h2
    simpa using h2

theorem splitLinesList_getLast (l : List Char) (h : l.getLast? = some '\n') :
    (splitLinesList l).getLast? = some [] := by
  induction l using splitLinesList.induct with
  | case1 => simp at h
  | case2 rest ih =>
    rcases rest with - | ⟨c2, rest2⟩
    · simp [splitLinesList]
    · rw [List.getLast?_cons_cons, List.getLast?_cons_cons] at h
      have h2 := ih h
      simp only [splitLinesList]
      rcases hs : splitLinesList (c2 :: rest2) with - | ⟨s, S⟩
      · exact absurd hs (splitLinesList_ne_nil _)
      · rw [hs] at h2
        rw [List.getLast?_cons_cons]
        exact h2
  | case3 rest ih =>
    rcases rest with - | ⟨c2, rest2⟩
    · simp [splitLinesList]
    · rw [List.getLast?_cons_cons] at h
      have h2 := ih h
      simp only [splitLinesList]
      rcases hs : splitLinesList (c2 :: rest2) with - | ⟨s, S⟩
      · exact absurd hs (splitLinesList_ne_nil _)
      · rw [hs] at h2
        rw [List.getLast?_cons_cons]
        exact h2
  | case4 c rest hnc hnn hnil ih => exact absurd hnil (splitLinesList_ne_nil rest)
  | case5 c rest hnc hnn seg segs hsegs ih =>
    rcases rest with - | ⟨c2, rest2⟩
    · simp at h
      exact absurd h hnn
    · rw [List.getLast?_cons_cons] at h
      have hl := ih h
      rw [splitLinesList_cons_generic c _ hnc hnn, hsegs]
      rw [hsegs] at hl
      have h2 := splitLinesList_length2 (c2 :: rest2) (List.mem_of_getLast?_eq_some h)
      rw [hsegs] at h2
      rcases segs with - | ⟨s3, segs3⟩
      · simp at h2
      · rw [List.getLast?_cons_cons] at hl ⊢
        exact hl

theorem splitLines_getLast_empty (content : String) (h : jsEndsWith content "\n" = true) :
    (splitLines content).getLast? = some "" := by
  have hc : content.data.getLast? = some '\n' := by
    simp only [jsEndsWith, List.isSuffixOf_iff_suffix] at h
    obtain ⟨t, ht⟩ := h
    rw [← ht]
    exact List.getLast?_concat t
  have h2 := splitLinesList_getLast content.data hc
  simp [splitLines, List.getLast?_map, h2]

theorem splitLines_ne_nil (content : String) : splitLines content ≠ [] := by
  simp [splitLines]
  exact splitLinesList_ne_nil content.data

theorem drop_pred_getLast {α} (l : List α) (x : α) (h : l.getLast? = some x) :
    l.drop (l.length - 1) = [x] := by
  induction l with
  | nil => simp at h
  | cons a t ih =>
    cases t with
    | nil => simp at h; simp [h]
    | cons b t' =>
      rw [List.getLast?_cons_cons] at h
      have h2 := ih h
      simpa using h2

/-- C10: the extract engine's line count is the number of `/\r?\n/` split
segments, so a newline-terminated file carries an extra empty final line;
`extractToNote` accepts that final position as a range, the selected payload
is entirely blank, and the run succeeds writing only the source file. -/
theorem lineCount_trailing_newline (paths : JournalPaths) (fs : FS)
    (o : ExtractRangeOptions) (r : ResolvedSource) (content : String)
    (hres : resolveSourcePath paths o.source = some r)
    (hslug : normalizeNoteSlug paths o.slug ≠ "")
    (hread : fs r.sourcePath = some content)
    (hnl : jsEndsWith content "\n" = true)
    (hstart : o.startLine = (splitLines content).length)
    (hend : o.endLine = (splitLines content).length) :
    (splitLines content).getLast? = some "" ∧
    joinLines (extractedRangeLines (splitLines content) o.startLine o.endLine) = "" ∧
    (extractToNote paths fs o).2 = none ∧
    ∀ q, q ≠ r.sourcePath → (extractToNote paths fs o).1 q = fs q := by
  have hlast := splitLines_getLast_empty content hnl
  have hlen : 1 ≤ (splitLines content).length :=
    List.length_pos.mpr (splitLines_ne_nil content)
  have hdrop : (splitLines content).drop ((splitLines content).length - 1) = [""] :=
    drop_pred_getLast _ _ hlast
  have hextr : extractedRangeLines (splitLines content) o.startLine o.endLine = [""] := by
    rw [hstart, hend]
    unfold extractedRangeLines
    rw [hdrop]
    have h1 : (splitLines content).length - ((splitLines content).length - 1) = 1 := by
      omega
    rw [h1]
    rfl
  have hjoin : joinLines (extractedRangeLines (splitLines content)
      o.startLine o.endLine) = "" := by
    rw [hextr]; rfl
  have hblank : jsTrim (joinLines (extractedRangeLines (splitLines content)
      o.startLine o.endLine)) = "" := by
    rw [hjoin]; rfl
  have hrange : ¬(o.startLine = 0 ∨ o.endLine < o.startLine ∨
      (splitLines content).length < o.endLine) := by
    omega
  refine ⟨hlast, hjoin, ?_, ?_⟩
  · simp [extractToNote, hres, hslug, hread, hrange, hblank]
  · intro q hq
    simp [extractToNote, hres, hslug, hread, hrange, hblank, fsWrite_other _ _ _ q hq]

/-- The C10 witness file system: one entry consisting of one newline-terminated
line. -/
def fsOneLine : FS := fun q => if q = "/h/journal/2024-01-01.md" then some "A\n" else none

/-- Witness for C10: `"A\n"` has two split lines, extracting `[2, 2]` — only
the extra empty final line — succeeds and the target stays untouched. -/
theorem lineCount_trailing_newline_witness :
    (extractToNote (journalPathsOf "/h") fsOneLine ⟨"2024-01-01", 2, 2, "note1"⟩).2 =
        none ∧
      (extractToNote (journalPathsOf "/h") fsOneLine ⟨"2024-01-01", 2, 2, "note1"⟩).1
          "/h/journal/notes/note1.md" =
        fsOneLine "/h/journal/notes/note1.md" :=
  ⟨(lineCount_trailing_newline (journalPathsOf "/h") fsOneLine
      ⟨"2024-01-01", 2, 2, "note1"⟩ ⟨"/h/journal/2024-01-01.md", .entry "2024-01-01"⟩
      "A\n" (by decide) (by decide) (by decide) (by decide) (by decide) (by decide)).2.2.1,
   (lineCount_trailing_newline (journalPathsOf "/h") fsOneLine
      ⟨"2024-01-01", 2, 2, "note1"⟩ ⟨"/h/journal/2024-01-01.md", .entry "2024-01-01"⟩
      "A\n" (by decide) (by decide) (by decide) (by decide) (by decide) (by decide)).2.2.2
     "/h/journal/notes/note1.md" (by decide)⟩

/-! ### Path segment lemmas -/

theorem splitSlashList_ne_nil (l : List Char) : splitSlashList l ≠ [] := by
  rw [splitSlashList.eq_def]
  split
  · simp
  · simp
  · split <;> simp

theorem splitSlashList_cons_generic (c : Char) (rest : List Char) (hnn : ¬c = '/') :
    splitSlashList (c :: rest) =
      match splitSlashList rest with
      | [] => [[c]]
      | seg :: segs => (c :: seg) :: segs := by
  rw [splitSlashList.eq_def]
  split
  · rename_i heq; exact absurd heq (by simp)
  · rename_i heq
    obtain ⟨h1, -⟩ := List.cons.inj heq
    exact absurd h1 hnn
  · rename_i c' rest' hne heq
    obtain ⟨h1, h2⟩ := List.cons.inj heq
    subst h1; subst h2; rfl

theorem splitSlashList_append (x y : List Char) :
    splitSlashList (x ++ '/' :: y) = splitSlashList x ++ splitSlashList y := by
  induction x with
  | nil => simp [splitSlashList]
  | cons c x' ih =>
    by_cases hc : c = '/'
    · subst hc
      simp only [List.cons_append, splitSlashList]
      exact congrArg ([] :: ·) ih
    · rw [List.cons_append, splitSlashList_cons_generic c _ hc, ih,
        splitSlashList_cons_generic c x' hc]
      rcases hs : splitSlashList x' with - | ⟨s, S⟩
      · exact absurd hs (splitSlashList_ne_nil x')
      · simp

/-- Segment decomposition of a character list. -/
def charSegs (l : List Char) : List String :=
  ((splitSlashList l).map (fun seg => (⟨seg⟩ : String))).filter (fun s => s ≠ "")

theorem pathSegments_eq_charSegs (p : String) : pathSegments p = charSegs p.data := rfl

theorem charSegs_append (x y : List Char) :
    charSegs (x ++ '/' :: y) = charSegs x ++ charSegs y := by
  unfold charSegs
  rw [splitSlashList_append, List.map_append, List.filter_append]

theorem charSegs_ne_nil (l : List Char) (c : Char) (hc : c ∈ l) (hne : c ≠ '/') :
    charSegs l ≠ [] := by
  induction l with
  | nil => simp at hc
  | cons a rest ih =>
    by_cases ha : a = '/'
    · subst ha
      have hcr : c ∈ rest := by
        rcases List.mem_cons.mp hc with h1 | h1
        · exact absurd h1 hne
        · exact h1
      have h2 := ih hcr
      unfold charSegs at h2 ⊢
      simpa [splitSlashList] using h2
    · unfold charSegs
      rw [splitSlashList_cons_generic a rest ha]
      rcases hs : splitSlashList rest with - | ⟨s, S⟩
      · exact absurd hs (splitSlashList_ne_nil rest)
      · have : ((⟨a :: s⟩ : String) ≠ "") := by
          intro he
          exact List.cons_ne_nil a s (congrArg String.data he)
        simp [this]

theorem charSegs_no_slash (l : List Char) (hl : l ≠ [])
    (h : ∀ c ∈ l, c ≠ '/') : charSegs l = [⟨l⟩] := by
  have hsingle : splitSlashList l = [l] := by
    induction l with
    | nil => exact absurd rfl hl
    | cons a rest ih =>
      have ha : a ≠ '/' := h a (List.mem_cons_self a rest)
      rw [splitSlashList_cons_generic a rest ha]
      rcases rest with - | ⟨b, rest'⟩
      · simp [splitSlashList]
      · rw [ih (List.cons_ne_nil b rest') (fun c hc => h c (List.mem_cons_of_mem a hc))]
  unfold charSegs
  rw [hsingle]
  have : ((⟨l⟩ : String) ≠ "") := by
    intro he
    exact hl (congrArg String.data he)
  simp [this]

theorem dropCommon_append (p x y : List String) :
    dropCommon (p ++ x) (p ++ y) = dropCommon x y := by
  induction p with
  | nil => rfl
  | cons a p' ih => simpa [dropCommon] using ih

theorem dropCommon_nil_left (y : List String) : dropCommon [] y = ([], y) := by
  cases y <;> rfl

theorem joinSep_ne_empty (sep x : String) (xs : List String) (hx : x ≠ "") :
    joinSep sep (x :: xs) ≠ "" := by
  cases xs with
  | nil => exact hx
  | cons y ys =>
    intro he
    have hd : (x ++ sep ++ joinSep sep (y :: ys)).data = [] := congrArg String.data he
    simp only [String.data_append, List.append_eq_nil] at hd
    exact hx (String.ext hd.1.1)

theorem pathSegments_empty : pathSegments "" = [] := rfl

theorem pathSegments_join (a b : String) :
    pathSegments (pathJoin a b) = pathSegments a ++ pathSegments b := by
  unfold pathJoin
  by_cases ha : a = ""
  · rw [if_pos ha, ha, pathSegments_empty, List.nil_append]
  · rw [if_neg ha]
    by_cases hsl : jsEndsWith a "/" = true
    · rw [if_pos hsl]
      simp only [jsEndsWith, List.isSuffixOf_iff_suffix] at hsl
      obtain ⟨x, hx⟩ := hsl
      have hxa : a.data = x ++ ['/'] := hx.symm
      have h1 : pathSegments (a ++ b) = charSegs x ++ charSegs b.data := by
        rw [pathSegments_eq_charSegs, String.data_append, hxa, List.append_assoc]
        exact charSegs_append x b.data
      have h2 : pathSegments a = charSegs x := by
        rw [pathSegments_eq_charSegs, hxa]
        have := charSegs_append x ([] : List Char)
        simpa [charSegs, splitSlashList] using this
      rw [h1, h2, pathSegments_eq_charSegs b]
    · rw [if_neg hsl]
      have h1 : (a ++ "/" ++ b).data = a.data ++ '/' :: b.data := by
        simp [String.data_append]
      rw [pathSegments_eq_charSegs, h1, charSegs_append]
      rfl

theorem isDigit_ne_slash (c : Char) (h : c.isDigit = true) : c ≠ '/' := by
  intro he
  subst he
  exact absurd h (by decide)

theorem isDateSlug_props (d : String) (h : isDateSlug d = true) :
    d.data.length = 10 ∧ ∀ c ∈ d.data, c ≠ '/' := by
  unfold isDateSlug at h
  split at h
  · rename_i heq
    simp only [Bool.and_eq_true] at h
    obtain ⟨⟨⟨⟨⟨⟨⟨h1, h2⟩, h3⟩, h4⟩, h5⟩, h6⟩, h7⟩, h8⟩ := h
    constructor
    · rw [heq]; rfl
    · intro c hc
      rw [heq] at hc
      simp only [List.mem_cons, List.not_mem_nil, or_false] at hc
      rcases hc with rfl | rfl | rfl | rfl | rfl | rfl | rfl | rfl | rfl | rfl
      · exact isDigit_ne_slash _ h1
      · exact isDigit_ne_slash _ h2
      · exact isDigit_ne_slash _ h3
      · exact isDigit_ne_slash _ h4
      · decide
      · exact isDigit_ne_slash _ h5
      · exact isDigit_ne_slash _ h6
      · decide
      · exact isDigit_ne_slash _ h7
      · exact isDigit_ne_slash _ h8
  · exact Bool.noConfusion h

theorem resolveSource_entry_date (paths : JournalPaths) (s id : String)
    (h : resolveSource paths s = .entry id) : isDateSlug id = true := by
  unfold resolveSource at h
  dsimp only at h
  split at h
  · exact SourceInfo.noConfusion h
  · split at h
    · rename_i r heq
      rw [h] at heq
      split at heq
      · split at heq
        · exact SourceInfo.noConfusion (Option.some.inj heq)
        · split at heq
          · split at heq
            · rename_i hdate
              have hinj := Option.some.inj heq
              injection hinj with hbid
              rw [hbid] at hdate
              exact hdate
            · exact Option.noConfusion heq
          · exact Option.noConfusion heq
      · exact Option.noConfusion heq
    · split at h
      · exact SourceInfo.noConfusion h
      · split at h
        · rename_i hdate
          injection h with hwid
          rw [hwid] at hdate
          exact hdate
        · exact SourceInfo.noConfusion h

theorem charSegs_mem_ne (l : List Char) (s : String) (h : s ∈ charSegs l) : s ≠ "" := by
  unfold charSegs at h
  have h2 := List.of_mem_filter h
  simpa using h2

/-- The `Source:` backlink of a resolved source is never empty in the real
store layout `journalPathsOf homeDir`: the relative path from the notes root
to the resolved source file always has at least one segment. -/
theorem sourceLink_ne_empty (homeDir src : String) (r : ResolvedSource)
    (h : resolveSourcePath (journalPathsOf homeDir) src = some r) :
    pathRelative (journalPathsOf homeDir).notesDir r.sourcePath ≠ "" := by
  unfold resolveSourcePath at h
  cases hres : resolveSource (journalPathsOf homeDir) src with
  | unknown => rw [hres] at h; exact Option.noConfusion h
  | entry id =>
    rw [hres] at h
    have hr := Option.some.inj h
    subst hr
    have hdate := resolveSource_entry_date _ _ _ hres
    obtain ⟨hlen, hns⟩ := isDateSlug_props id hdate
    have hmddata : (".md" : String).data = ['.', 'm', 'd'] := rfl
    have hmd : ∀ c ∈ (id ++ ".md").data, c ≠ '/' := by
      intro c hc
      rw [String.data_append] at hc
      rcases List.mem_append.mp hc with h1 | h1
      · exact hns c h1
      · rw [hmddata] at h1
        simp only [List.mem_cons, List.not_mem_nil, or_false] at h1
        rcases h1 with rfl | rfl | rfl <;> decide
    have hmdne : (id ++ ".md").data ≠ [] := by
      rw [String.data_append, hmddata]
      intro he
      exact List.cons_ne_nil _ _ (List.append_eq_nil.mp he).2
    have hsegMD : charSegs (id ++ ".md").data = [id ++ ".md"] := by
      rw [charSegs_no_slash _ hmdne hmd]
    have hsegN : pathSegments (journalPathsOf homeDir).notesDir =
        pathSegments (journalPathsOf homeDir).journalDir ++ ["notes"] := by
      have h0 : (journalPathsOf homeDir).notesDir =
          pathJoin (journalPathsOf homeDir).journalDir "notes" := rfl
      rw [h0, pathSegments_join]
      rfl
    have hsegS : pathSegments (entryPathForDate (journalPathsOf homeDir) id) =
        pathSegments (journalPathsOf homeDir).journalDir ++ [id ++ ".md"] := by
      unfold entryPathForDate
      rw [pathSegments_join, pathSegments_eq_charSegs (id ++ ".md"), hsegMD]
    have hne5 : ("notes" : String) ≠ id ++ ".md" := by
      intro he
      have h2 := congrArg (fun t => t.data.length) he
      simp only [String.data_append, List.length_append] at h2
      rw [hlen] at h2
      exact absurd h2 (by decide)
    unfold pathRelative
    dsimp only
    rw [hsegN, hsegS, dropCommon_append]
    have hdc : dropCommon ["notes"] [id ++ ".md"] = (["notes"], [id ++ ".md"]) := by
      simp [dropCommon, hne5]
    rw [hdc]
    exact joinSep_ne_empty "/" ".." _ (by decide)
  | note id =>
    rw [hres] at h
    have hr := Option.some.inj h
    subst hr
    have hd : 'd' ∈ (id ++ ".md").data := by
      rw [String.data_append]
      exact List.mem_append_right _ (by decide)
    have hX : charSegs (id ++ ".md").data ≠ [] := charSegs_ne_nil _ 'd' hd (by decide)
    have hsegS : pathSegments (notePathForSlug (journalPathsOf homeDir) id) =
        pathSegments (journalPathsOf homeDir).notesDir ++ charSegs (id ++ ".md").data := by
      unfold notePathForSlug
      rw [pathSegments_join]
      rfl
    unfold pathRelative
    dsimp only
    rw [hsegS]
    have h1 := dropCommon_append (pathSegments (journalPathsOf homeDir).notesDir) []
      (charSegs (id ++ ".md").data)
    rw [List.append_nil] at h1
    rw [h1, dropCommon_nil_left]
    rcases hXl : charSegs (id ++ ".md").data with - | ⟨x, xs⟩
    · exact absurd hXl hX
    · simp only [List.length_nil, List.replicate, List.nil_append]
      exact joinSep_ne_empty "/" x xs
        (charSegs_mem_ne _ x (hXl ▸ List.mem_cons_self x xs))

theorem infix_append3 (a m b : String) : m.data <:+: (a ++ m ++ b).data :=
  ⟨a.data, b.data, by simp⟩

theorem appendWithSpacing_contains (c m : String) :
    m.data <:+: (appendWithSpacing c m).data := by
  unfold appendWithSpacing
  by_cases h : c = ""
  · rw [if_pos h]
    have h2 := infix_append3 "" m (if jsEndsWith m "\n" = true then "" else "\n")
    rwa [String.empty_append] at h2
  · rw [if_neg h]
    exact infix_append3 _ m _

theorem appendToTarget_absent (fs : FS) (p t m : String) (h : fs p = none) :
    (appendToTarget fs p t m).1 p =
      some (appendWithSpacing ("# " ++ t ++ "\ntags:\n\n") m) := by
  unfold appendToTarget
  have he : ensureFileExists fs p t p = some ("# " ++ t ++ "\ntags:\n\n") := by
    unfold ensureFileExists
    simp only [h]
    exact fsWrite_self fs p _
  simp only [he]
  exact fsWrite_self _ p _

theorem appendToTarget_contains (fs : FS) (p t m : String) :
    ∃ T, (appendToTarget fs p t m).1 p = some T ∧ m.data <:+: T.data := by
  cases h : fs p with
  | some c => exact ⟨_, appendToTarget_self fs p t m c h, appendWithSpacing_contains c m⟩
  | none => exact ⟨_, appendToTarget_absent fs p t m h, appendWithSpacing_contains _ m⟩

/-- C1: on a source whose file holds `"A\nB\n---\nC\nD\n"`, a successful
`extractToNote(source, 1, 2, "note1")` rewrites the source file to exactly
`"[note1](notes/note1.md)\n---\nC\nD\n"`, and the target `notes/note1.md`
afterwards contains a `Source:` backlink line followed by a blank line and
the payload `"A\nB"`. -/
theorem extractRange_scenario (homeDir src : String) (fs : FS) (r : ResolvedSource)
    (hres : resolveSourcePath (journalPathsOf homeDir) src = some r)
    (hcontent : fs r.sourcePath = some "A\nB\n---\nC\nD\n")
    (hneq : r.sourcePath ≠ notePathForSlug (journalPathsOf homeDir) "note1") :
    (extractToNote (journalPathsOf homeDir) fs ⟨src, 1, 2, "note1"⟩).2 = none ∧
    (extractToNote (journalPathsOf homeDir) fs ⟨src, 1, 2, "note1"⟩).1 r.sourcePath =
      some "[note1](notes/note1.md)\n---\nC\nD\n" ∧
    ∃ lbl rel T, rel ≠ "" ∧
      (extractToNote (journalPathsOf homeDir) fs ⟨src, 1, 2, "note1"⟩).1
          (notePathForSlug (journalPathsOf homeDir) "note1") = some T ∧
      ("Source: [" ++ lbl ++ "](" ++ rel ++ ")" ++ "\n\n" ++ "A\nB").data <:+: T.data := by
  have hslugval : normalizeNoteSlug (journalPathsOf homeDir) "note1" = "note1" := rfl
  have hrel := sourceLink_ne_empty homeDir src r hres
  have hrel' : (⟨(pathRelative (journalPathsOf homeDir).notesDir r.sourcePath).data.map
      (fun c => if c = '\\' then '/' else c)⟩ : String) ≠ "" := by
    intro he
    apply hrel
    have h2 := congrArg String.data he
    simp only [List.map_eq_nil_iff] at h2
    exact String.ext h2
  have hlink : sourceLinkLineFor (journalPathsOf homeDir) r ≠ "" := by
    unfold sourceLinkLineFor
    rw [if_neg hrel']
    intro he
    have h2 := congrArg String.data he
    simp [String.data_append] at h2
  have hlinkform : sourceLinkLineFor (journalPathsOf homeDir) r =
      "Source: [" ++ (match r.sourceInfo with
        | .entry id => id
        | _ => pathBasenameExt r.sourcePath ".md") ++ "](" ++
        (⟨(pathRelative (journalPathsOf homeDir).notesDir r.sourcePath).data.map
          (fun c => if c = '\\' then '/' else c)⟩ : String) ++ ")" := by
    unfold sourceLinkLineFor
    rw [if_neg hrel']
  have hexp : extractToNote (journalPathsOf homeDir) fs ⟨src, 1, 2, "note1"⟩ =
      appendToTarget (fsWrite fs r.sourcePath "[note1](notes/note1.md)\n---\nC\nD\n")
        (notePathForSlug (journalPathsOf homeDir) "note1") "note1"
        (sourceLinkLineFor (journalPathsOf homeDir) r ++ "\n\n" ++ "A\nB") := by
    simp only [extractToNote, hres, hcontent, hslugval]
    rw [if_neg (by decide : ¬("note1" = ""))]
    rw [if_neg (by decide : ¬((1 : Nat) < 1 ∨ 2 < 1 ∨
      (splitLines "A\nB\n---\nC\nD\n").length < 2))]
    rw [if_neg (by decide : ¬(jsTrim (joinLines (extractedRangeLines
      (splitLines "A\nB\n---\nC\nD\n") 1 2)) = ""))]
    rw [if_neg hlink]
    rfl
  refine ⟨?_, ?_, ?_⟩
  · rw [hexp]; exact appendToTarget_snd _ _ _ _
  · rw [hexp, appendToTarget_other _ _ _ _ _ hneq]
    exact fsWrite_self _ _ _
  · obtain ⟨T, hT, hinf⟩ := appendToTarget_contains
      (fsWrite fs r.sourcePath "[note1](notes/note1.md)\n---\nC\nD\n")
      (notePathForSlug (journalPathsOf homeDir) "note1") "note1"
      (sourceLinkLineFor (journalPathsOf homeDir) r ++ "\n\n" ++ "A\nB")
    refine ⟨(match r.sourceInfo with
      | .entry id => id
      | _ => pathBasenameExt r.sourcePath ".md"), _, T, hrel', ?_, ?_⟩
    · rw [hexp]; exact hT
    · rw [← hlinkform]
      exact hinf

/-- The C1 witness file system: the entry `2024-01-01` holds the scenario
content and nothing else exists. -/
def fsScenario : FS :=
  fun q => if q = "/h/journal/2024-01-01.md" then some "A\nB\n---\nC\nD\n" else none

/-- Witness for C1, at the concrete source reference `2024-01-01`. -/
theorem extractRange_scenario_witness :
    (extractToNote (journalPathsOf "/h") fsScenario ⟨"2024-01-01", 1, 2, "note1"⟩).2 =
        none ∧
      (extractToNote (journalPathsOf "/h") fsScenario
          ⟨"2024-01-01", 1, 2, "note1"⟩).1 "/h/journal/2024-01-01.md" =
        some "[note1](notes/note1.md)\n---\nC\nD\n" ∧
      ∃ lbl rel T, rel ≠ "" ∧
        (extractToNote (journalPathsOf "/h") fsScenario
            ⟨"2024-01-01", 1, 2, "note1"⟩).1 "/h/journal/notes/note1.md" = some T ∧
        ("Source: [" ++ lbl ++ "](" ++ rel ++ ")" ++ "\n\n" ++ "A\nB").data <:+: T.data :=
  extractRange_scenario "/h" "2024-01-01" fsScenario
    ⟨"/h/journal/2024-01-01.md", .entry "2024-01-01"⟩ (by decide) (by decide) (by decide)

/-! ### Section scanner invariants (toward C3) -/

theorem lineAt_eq_getElem (all : List String) (n : Nat) (h : n - 1 < all.length) :
    lineAt all n = all[n - 1] := by
  unfold lineAt
  exact List.getD_eq_getElem all "" h

theorem skipBlanks_ge (l : List String) (n : Nat) : n ≤ skipBlanks l n := by
  induction l generalizing n with
  | nil => simp [skipBlanks]
  | cons a t ih =>
    simp only [skipBlanks]
    split
    · have := ih (n + 1); omega
    · exact le_rfl

theorem skipBlanks_spec (all : List String) : ∀ (k n m : Nat), m - n = k → 1 ≤ n → n ≤ m →
    m ≤ all.length →
    (∀ x, n ≤ x → x < m → isBlankLine (lineAt all x) = true) →
    isBlankLine (lineAt all m) = false →
    skipBlanks (all.drop (n - 1)) n = m := by
  intro k
  induction k with
  | zero =>
    intro n m hk h1 hnm hm hblank hnb
    have heq : n = m := by omega
    subst heq
    have hlt : n - 1 < all.length := by omega
    rw [List.drop_eq_getElem_cons hlt]
    simp only [skipBlanks]
    rw [← lineAt_eq_getElem all n hlt, hnb]
    simp
  | succ k ih =>
    intro n m hk h1 hnm hm hblank hnb
    have hlt : n - 1 < all.length := by omega
    rw [List.drop_eq_getElem_cons hlt]
    simp only [skipBlanks]
    rw [← lineAt_eq_getElem all n hlt, hblank n le_rfl (by omega)]
    simp only [if_true]
    have h2 := ih (n + 1) m (by omega) (by omega) (by omega) hm
      (fun x hx1 hx2 => hblank x (by omega) hx2) hnb
    have h3 : n - 1 + 1 = (n + 1) - 1 := by omega
    rw [h3]
    exact h2

theorem trimBlankEnd_spec (all : List String) (s : Nat) (hs1 : 1 ≤ s)
    (hnb : isBlankLine (lineAt all s) = false) :
    ∀ e0, s ≤ e0 →
      s ≤ trimBlankEnd all s e0 ∧ trimBlankEnd all s e0 ≤ e0 ∧
      ∀ x, trimBlankEnd all s e0 < x → x ≤ e0 → isBlankLine (lineAt all x) = true := by
  intro e0
  induction e0 with
  | zero => intro h; omega
  | succ e ihe =>
    intro hse
    simp only [trimBlankEnd]
    by_cases hb : isBlankLine (lineAt all (e + 1)) = true
    · rw [if_pos ⟨hse, hb⟩]
      have hse' : s ≤ e := by
        rcases Nat.lt_or_ge s (e + 1) with h | h
        · omega
        · exfalso
          have heq : s = e + 1 := by omega
          rw [heq] at hnb
          rw [hnb] at hb
          exact Bool.noConfusion hb
      obtain ⟨a, b, d⟩ := ihe hse'
      refine ⟨a, by omega, fun x h1 h2 => ?_⟩
      rcases Nat.lt_or_ge x (e + 1) with h3 | h3
      · exact d x h1 (by omega)
      · have heq : x = e + 1 := by omega
        rw [heq]; exact hb
    · rw [if_neg (fun hc => hb hc.2)]
      exact ⟨hse, le_rfl, fun x h1 h2 => by omega⟩

/-- Between a closed section's trimmed end `e` and the next content at `s2`,
the first non-blank line is a separator at some `m`. -/
def GapOK (all : List String) (e s2 : Nat) : Prop :=
  ∃ m, e < m ∧ m < s2 ∧ isSeparatorLine (lineAt all m) = true ∧
    ∀ x, e < x → x < m → isBlankLine (lineAt all x) = true

theorem sep_not_blank (l : String) (h : isSeparatorLine l = true) :
    isBlankLine l = false := by
  unfold isSeparatorLine at h
  dsimp only at h
  by_cases htr : trimChars l.data = []
  · rw [if_pos htr] at h
    exact Bool.noConfusion h
  · unfold isBlankLine jsTrim
    simp only [decide_eq_false_iff_not]
    intro he
    exact htr (congrArg String.data he)

theorem le_blockEndLineFor (all : List String) (e : Nat) : e ≤ blockEndLineFor all e := by
  unfold blockEndLineFor
  dsimp only
  split
  · have := skipBlanks_ge (all.drop e) (e + 1)
    omega
  · exact le_rfl

theorem blockEndLineFor_le (all : List String) (e : Nat) (he : e ≤ all.length) :
    blockEndLineFor all e ≤ all.length := by
  unfold blockEndLineFor
  dsimp only
  split
  · rename_i h; exact h.1
  · exact he

theorem blockEnd_lt_of_gap (all : List String) (e s2 : Nat) (h : GapOK all e s2)
    (hs2 : s2 ≤ all.length + 1) : blockEndLineFor all e < s2 := by
  obtain ⟨m, hem, hms, hsep, hblank⟩ := h
  have hm : m ≤ all.length := by omega
  have hskip : skipBlanks (all.drop ((e + 1) - 1)) (e + 1) = m :=
    skipBlanks_spec all (m - (e + 1)) (e + 1) m rfl (by omega) (by omega) hm
      (fun x h1 h2 => hblank x (by omega) h2) (sep_not_blank _ hsep)
  have he1 : (e + 1) - 1 = e := by omega
  rw [he1] at hskip
  unfold blockEndLineFor
  dsimp only
  rw [hskip, if_pos ⟨hm, hsep⟩]
  exact hms

/-- Per-section sanity facts produced by the scanner. -/
def ElemOK (all : List String) (r : RawSection) : Prop :=
  1 ≤ r.startLine ∧ r.startLine ≤ r.endLine ∧ r.endLine ≤ all.length

/-- The scanning loop's invariant: every produced section is in bounds, and
consecutive sections are separated by a gap whose first non-blank line is a
separator. -/
theorem scanSections_invariant (all : List String) :
    ∀ (rest : List String) (n : Nat) (st : Option Nat),
      rest = all.drop (n - 1) → 1 ≤ n → n - 1 ≤ all.length →
      (∀ s, st = some s → 1 ≤ s ∧ s ≤ n - 1 ∧ isBlankLine (lineAt all s) = false) →
      (∀ r ∈ scanSections all rest n st, ElemOK all r) ∧
      List.Chain' (fun r1 r2 => GapOK all r1.endLine r2.startLine)
        (scanSections all rest n st) ∧
      (st = none → ∀ f, (scanSections all rest n st).head? = some f → n ≤ f.startLine) ∧
      (∀ s, st = some s → ∃ e tl, scanSections all rest n st = ⟨s, e⟩ :: tl ∧ s ≤ e) := by
  intro rest
  induction rest with
  | nil =>
    intro n st hrest h1 hlen hst
    cases st with
    | none => simp [scanSections]
    | some s =>
      obtain ⟨hs1, hs2, hs3⟩ := hst s rfl
      obtain ⟨ht1, ht2, ht3⟩ := trimBlankEnd_spec all s hs1 hs3 (n - 1) hs2
      simp only [scanSections]
      rw [if_pos ht1]
      refine ⟨?_, ?_, ?_, ?_⟩
      · intro r hr
        simp only [List.mem_singleton] at hr
        subst hr
        refine ⟨hs1, ht1, ?_⟩
        show trimBlankEnd all s (n - 1) ≤ all.length
        omega
      · simp
      · intro hn; exact Option.noConfusion hn
      · intro s' hs'
        obtain rfl := Option.some.inj hs'
        exact ⟨_, [], rfl, ht1⟩
  | cons line rest' ih =>
    intro n st hrest h1 hlen hst
    have hlt : n - 1 < all.length := by
      by_contra hc
      have hnil : all.drop (n - 1) = [] := List.drop_of_length_le (by omega)
      rw [← hrest] at hnil
      exact List.noConfusion hnil
    have hdec := List.drop_eq_getElem_cons hlt
    have hn11 : n - 1 + 1 = n := by omega
    rw [hn11] at hdec
    rw [hdec] at hrest
    obtain ⟨hline, hrest'⟩ := List.cons.inj hrest
    have hlineAt : lineAt all n = line := by rw [lineAt_eq_getElem all n hlt, ← hline]
    have hdropn : rest' = all.drop ((n + 1) - 1) := by
      rw [hrest']; congr 1
    by_cases hsep : isSeparatorLine line = true
    · cases st with
      | none =>
        simp only [scanSections]
        rw [if_pos hsep]
        obtain ⟨e1, e2, e3, e4⟩ := ih (n + 1) none hdropn (by omega) (by omega)
          (fun s hs => Option.noConfusion hs)
        refine ⟨e1, e2, ?_, ?_⟩
        · intro _hn f hf
          have h5 := e3 rfl f hf
          omega
        · intro s hs; exact Option.noConfusion hs
      | some s =>
        obtain ⟨hs1, hs2, hs3⟩ := hst s rfl
        obtain ⟨ht1, ht2, ht3⟩ := trimBlankEnd_spec all s hs1 hs3 (n - 1) hs2
        simp only [scanSections]
        rw [if_pos hsep]
        rw [if_pos ht1]
        obtain ⟨e1, e2, e3, e4⟩ := ih (n + 1) none hdropn (by omega) (by omega)
          (fun s' hs' => Option.noConfusion hs')
        have hgap : ∀ f, (scanSections all rest' (n + 1) none).head? = some f →
            GapOK all (trimBlankEnd all s (n - 1)) f.startLine := by
          intro f hf
          have hnf := e3 rfl f hf
          exact ⟨n, by omega, by omega, by rw [hlineAt]; exact hsep,
            fun x hx1 hx2 => ht3 x hx1 (by omega)⟩
        refine ⟨?_, ?_, ?_, ?_⟩
        · intro r hr
          simp only [List.singleton_append, List.mem_cons] at hr
          rcases hr with rfl | hr
          · refine ⟨hs1, ht1, ?_⟩
            show trimBlankEnd all s (n - 1) ≤ all.length
            omega
          · exact e1 r hr
        · simp only [List.singleton_append]
          rw [List.chain'_cons']
          exact ⟨fun y hy => hgap y hy, e2⟩
        · intro hn; exact Option.noConfusion hn
        · intro s' hs'
          obtain rfl := Option.some.inj hs'
          exact ⟨trimBlankEnd all s (n - 1), scanSections all rest' (n + 1) none,
            by simp [List.singleton_append], ht1⟩
    · cases st with
      | none =>
        by_cases hblank2 : isBlankLine line = true
        · simp only [scanSections]
          rw [if_neg hsep, if_pos hblank2]
          obtain ⟨e1, e2, e3, e4⟩ := ih (n + 1) none hdropn (by omega) (by omega)
            (fun s hs => Option.noConfusion hs)
          refine ⟨e1, e2, ?_, ?_⟩
          · intro _hn f hf
            have h5 := e3 rfl f hf
            omega
          · intro s hs; exact Option.noConfusion hs
        · simp only [scanSections]
          rw [if_neg hsep, if_neg hblank2]
          obtain ⟨e1, e2, e3, e4⟩ := ih (n + 1) (some n) hdropn (by omega) (by omega)
            (by
              intro s hs
              obtain rfl := Option.some.inj hs
              refine ⟨by omega, by omega, ?_⟩
              rw [hlineAt]
              simpa using hblank2)
          obtain ⟨e0, tl, heq, hse⟩ := e4 n rfl
          refine ⟨e1, e2, ?_, ?_⟩
          · intro _hn f hf
            rw [heq] at hf
            simp only [List.head?_cons, Option.some.injEq] at hf
            subst hf
            exact le_rfl
          · intro s hs; exact Option.noConfusion hs
      | some s =>
        obtain ⟨hs1, hs2, hs3⟩ := hst s rfl
        simp only [scanSections]
        rw [if_neg hsep]
        obtain ⟨e1, e2, e3, e4⟩ := ih (n + 1) (some s) hdropn (by omega) (by omega)
          (by
            intro s' hs'
            obtain rfl := Option.some.inj hs'
            exact ⟨hs1, by omega, hs3⟩)
        refine ⟨e1, e2, ?_, e4⟩
        intro hn; exact Option.noConfusion hn

theorem chain_to_pairwise_blockEnd (lines : List String) :
    ∀ (l : List RawSection), (∀ r ∈ l, ElemOK lines r) →
      List.Chain' (fun r1 r2 => GapOK lines r1.endLine r2.startLine) l →
      List.Pairwise (fun r1 r2 =>
        blockEndLineFor lines r1.endLine < r2.startLine) l := by
  intro l
  induction l with
  | nil => intro _ _; exact List.Pairwise.nil
  | cons a t ih =>
    intro helem hchain
    rw [List.chain'_cons'] at hchain
    obtain ⟨hhead, htail⟩ := hchain
    have hpt := ih (fun r hr => helem r (List.mem_cons_of_mem a hr)) htail
    rw [List.pairwise_cons]
    refine ⟨?_, hpt⟩
    intro b hb
    rcases t with - | ⟨c, t'⟩
    · simp at hb
    · have hc := helem c (by simp)
      have hac : blockEndLineFor lines a.endLine < c.startLine := by
        have hg := hhead c rfl
        refine blockEnd_lt_of_gap lines _ _ hg ?_
        obtain ⟨-, h2, h3⟩ := hc
        omega
      rcases List.mem_cons.mp hb with rfl | hb'
      · exact hac
      · have hcb : blockEndLineFor lines c.endLine < b.startLine :=
          (List.pairwise_cons.mp hpt).1 b hb'
        have hle := le_blockEndLineFor lines c.endLine
        obtain ⟨-, h2, -⟩ := hc
        omega

theorem pairwise_enumFrom {R : RawSection → RawSection → Prop} :
    ∀ (l : List RawSection) (n : Nat), List.Pairwise R l →
      List.Pairwise (fun p q => R p.2 q.2) (l.enumFrom n) := by
  intro l
  induction l with
  | nil => intro n _; simp
  | cons a t ih =>
    intro n h
    rw [List.pairwise_cons] at h
    rw [List.enumFrom_cons, List.pairwise_cons]
    refine ⟨?_, ih (n + 1) h.2⟩
    intro q hq
    exact h.1 q.2 (List.snd_mem_of_mem_enumFrom hq)

/-- Per-section sanity facts of the parsed sections. -/
def SecOK (lines : List String) (sec : Section) : Prop :=
  1 ≤ sec.startLine ∧ sec.startLine ≤ sec.endLine ∧ sec.endLine ≤ sec.blockEndLine ∧
    sec.blockEndLine ≤ lines.length

/-- The parsed sections are in bounds and their `[startLine, blockEndLine]`
spans are pairwise disjoint in document order. -/
theorem collectSections_wf (content : String) :
    (∀ sec ∈ collectSections content, SecOK (splitLines content) sec) ∧
    List.Pairwise (fun a b => a.blockEndLine < b.startLine) (collectSections content) := by
  have hinv := scanSections_invariant (splitLines content) (splitLines content) 1 none
    (by simp) le_rfl (by simp) (fun s hs => Option.noConfusion hs)
  obtain ⟨helem, hchain, -, -⟩ := hinv
  have hpw := chain_to_pairwise_blockEnd (splitLines content) _ helem hchain
  constructor
  · intro sec hsec
    unfold collectSections at hsec
    simp only [List.mem_map] at hsec
    obtain ⟨p, hp, hfp⟩ := hsec
    have hmem : p.2 ∈ scanSections (splitLines content) (splitLines content) 1 none :=
      List.snd_mem_of_mem_enumFrom hp
    obtain ⟨q1, q2, q3⟩ := helem p.2 hmem
    rw [← hfp]
    exact ⟨q1, q2, le_blockEndLineFor _ _, blockEndLineFor_le _ _ q3⟩
  · unfold collectSections
    rw [List.pairwise_map]
    exact pairwise_enumFrom _ 0 hpw

/-! ### Selection and replacement facts (toward C3) -/

theorem uniqueSortedIndices_sorted (req : List Nat) :
    List.Pairwise (· < ·) (uniqueSortedIndices req) := by
  unfold uniqueSortedIndices
  have hs : List.Sorted (fun a b : Nat => a ≤ b)
      (List.insertionSort (fun a b : Nat => a ≤ b) req.dedup) :=
    List.sorted_insertionSort _ _
  have hn : (List.insertionSort (fun a b : Nat => a ≤ b) req.dedup).Nodup :=
    (List.perm_insertionSort _ _).nodup_iff.mpr (List.nodup_dedup req)
  exact (List.Pairwise.and hs hn).imp (fun h => lt_of_le_of_ne h.1 h.2)

theorem selectedSections_facts (content : String) (idxs : List Nat) :
    (∀ sec ∈ selectedSectionsFor (collectSections content) (uniqueSortedIndices idxs),
      SecOK (splitLines content) sec) ∧
    List.Pairwise (fun a b => a.blockEndLine < b.startLine)
      (selectedSectionsFor (collectSections content) (uniqueSortedIndices idxs)) := by
  obtain ⟨hok, hpw⟩ := collectSections_wf content
  constructor
  · intro sec hsec
    unfold selectedSectionsFor at hsec
    simp only [List.mem_filterMap] at hsec
    obtain ⟨i, hi, hsel⟩ := hsec
    by_cases hi0 : i = 0
    · rw [if_pos hi0] at hsel; exact Option.noConfusion hsel
    · rw [if_neg hi0] at hsel
      exact hok sec (List.get?_mem hsel)
  · unfold selectedSectionsFor
    rw [List.pairwise_filterMap]
    refine (uniqueSortedIndices_sorted idxs).imp ?_
    intro i j hij x hx y hy
    by_cases hi0 : i = 0
    · rw [if_pos hi0] at hx; exact Option.noConfusion hx
    · rw [if_neg hi0] at hx
      by_cases hj0 : j = 0
      · rw [if_pos hj0] at hy; exact Option.noConfusion hy
      · rw [if_neg hj0] at hy
        have hx' : (collectSections content).get? (i - 1) = some x := hx
        have hy' : (collectSections content).get? (j - 1) = some y := hy
        obtain ⟨hilt, hxg⟩ := List.get?_eq_some.mp hx'
        obtain ⟨hjlt, hyg⟩ := List.get?_eq_some.mp hy'
        have hij2 : i - 1 < j - 1 := by omega
        have hrel := List.pairwise_iff_get.mp hpw ⟨i - 1, hilt⟩ ⟨j - 1, hjlt⟩ hij2
        rw [hxg, hyg] at hrel
        exact hrel

theorem pairwise_start_of_end {l : List Replacement}
    (h : List.Pairwise (fun a b => a.endLine < b.startLine) l)
    (hb : ∀ r ∈ l, r.startLine ≤ r.endLine) :
    List.Pairwise (fun a b => a.startLine < b.startLine) l := by
  induction l with
  | nil => exact List.Pairwise.nil
  | cons a t ih =>
    rw [List.pairwise_cons] at h ⊢
    refine ⟨?_, ih h.2 (fun r hr => hb r (List.mem_cons_of_mem a hr))⟩
    intro b hbt
    have h1 := h.1 b hbt
    have h2 := hb a (List.mem_cons_self a t)
    omega

theorem reps_facts (content targetSlug : String) (idxs : List Nat) :
    List.Pairwise (fun a b => a.endLine < b.startLine)
      ((selectedSectionsFor (collectSections content) (uniqueSortedIndices idxs)).map
        (sectionReplacement (splitLines content) targetSlug)) ∧
    (∀ rep ∈ (selectedSectionsFor (collectSections content)
        (uniqueSortedIndices idxs)).map
        (sectionReplacement (splitLines content) targetSlug),
      1 ≤ rep.startLine ∧ rep.startLine ≤ rep.endLine ∧
        rep.endLine ≤ (splitLines content).length) ∧
    List.Pairwise (fun a b => a.startLine < b.startLine)
      ((selectedSectionsFor (collectSections content) (uniqueSortedIndices idxs)).map
        (sectionReplacement (splitLines content) targetSlug)) := by
  obtain ⟨hok, hpw⟩ := selectedSections_facts content idxs
  have h1 : List.Pairwise (fun a b => a.endLine < b.startLine)
      ((selectedSectionsFor (collectSections content) (uniqueSortedIndices idxs)).map
        (sectionReplacement (splitLines content) targetSlug)) :=
    List.Pairwise.map _ (fun a b h => h) hpw
  have h2 : ∀ rep ∈ (selectedSectionsFor (collectSections content)
      (uniqueSortedIndices idxs)).map (sectionReplacement (splitLines content) targetSlug),
      1 ≤ rep.startLine ∧ rep.startLine ≤ rep.endLine ∧
        rep.endLine ≤ (splitLines content).length := by
    intro rep hrep
    simp only [List.mem_map] at hrep
    obtain ⟨sec, hsec, rfl⟩ := hrep
    obtain ⟨s1, s2, s3, s4⟩ := hok sec hsec
    exact ⟨s1, s2.trans s3, s4⟩
  exact ⟨h1, h2, pairwise_start_of_end h1 (fun r hr => (h2 r hr).2.1)⟩

/-! ### Splice algebra (C3) -/

/-- Ascending-order right fold of the splices, with positions shifted by the
`base` lines already fixed. -/
def spliceFoldShift (base : Nat) (reps : List Replacement) (lines : List String) :
    List String :=
  reps.foldr (fun r acc =>
    splice acc (r.startLine - 1 - base) (r.endLine - r.startLine + 1) r.linkLine) lines

theorem spliceFoldShift_cons (base : Nat) (q : Replacement) (rest : List Replacement)
    (lines : List String) :
    spliceFoldShift base (q :: rest) lines =
      splice (spliceFoldShift base rest lines)
        (q.startLine - 1 - base) (q.endLine - q.startLine + 1) q.linkLine := rfl

theorem sortDescByStart_of_sorted (reps : List Replacement)
    (h : List.Pairwise (fun a b => a.startLine < b.startLine) reps) :
    sortDescByStart reps = reps.reverse := by
  unfold sortDescByStart
  haveI : IsTotal Replacement (fun a b => b.startLine ≤ a.startLine) :=
    ⟨fun a b => Nat.le_total b.startLine a.startLine⟩
  haveI : IsTrans Replacement (fun a b => b.startLine ≤ a.startLine) :=
    ⟨fun a b c h1 h2 => Nat.le_trans h2 h1⟩
  haveI : IsAntisymm Replacement (fun a b => b.startLine < a.startLine) :=
    ⟨fun a b h1 h2 => absurd h1 (by omega)⟩
  have hperm : List.Perm
      (List.insertionSort (fun a b => b.startLine ≤ a.startLine) reps) reps.reverse :=
    (List.perm_insertionSort _ _).trans (List.reverse_perm reps).symm
  have hs1 : List.Sorted (fun a b : Replacement => b.startLine ≤ a.startLine)
      (List.insertionSort (fun a b => b.startLine ≤ a.startLine) reps) :=
    List.sorted_insertionSort _ _
  have hne : List.Pairwise (fun a b : Replacement => a.startLine ≠ b.startLine) reps :=
    h.imp (fun hx => Nat.ne_of_lt hx)
  have hne2 : List.Pairwise (fun a b : Replacement => a.startLine ≠ b.startLine)
      (List.insertionSort (fun a b => b.startLine ≤ a.startLine) reps) :=
    ((List.perm_insertionSort _ reps).pairwise_iff (fun hxy => hxy.symm)).mpr hne
  have hs2 : List.Pairwise (fun a b : Replacement => b.startLine < a.startLine)
      (List.insertionSort (fun a b => b.startLine ≤ a.startLine) reps) :=
    (hs1.and hne2).imp (fun hx => lt_of_le_of_ne hx.1 (Ne.symm hx.2))
  have hrev : List.Pairwise (fun a b : Replacement => b.startLine < a.startLine)
      reps.reverse := by
    rw [List.pairwise_reverse]
    exact h
  exact List.eq_of_perm_of_sorted hperm hs2 hrev

theorem applyReplacements_eq_spliceFoldShift (lines : List String)
    (reps : List Replacement)
    (h : List.Pairwise (fun a b => a.startLine < b.startLine) reps) :
    applyReplacements lines reps = spliceFoldShift 0 reps lines := by
  unfold applyReplacements spliceFoldShift
  rw [sortDescByStart_of_sorted reps h, List.foldl_reverse]
  rfl

theorem splice_append_right (A H : List String) (i len : Nat) (x : String)
    (hA : A.length ≤ i) :
    splice (A ++ H) i len x = A ++ splice H (i - A.length) len x := by
  unfold splice
  rw [List.take_append_eq_append_take, List.drop_append_eq_append_drop]
  rw [List.take_of_length_le hA, List.drop_of_length_le (by omega)]
  have h1 : i + len - A.length = i - A.length + len := by omega
  rw [h1]
  simp [List.append_assoc]

theorem splice_append_left (A H : List String) (i len : Nat) (x : String)
    (hiA : i ≤ A.length) (hlen : i + len = A.length) :
    splice (A ++ H) i len x = A.take i ++ [x] ++ H := by
  unfold splice
  rw [List.take_append_eq_append_take, List.drop_append_eq_append_drop]
  have h0 : i - A.length = 0 := by omega
  rw [h0, hlen]
  have h2 : A.length - A.length = 0 := by omega
  rw [h2]
  simp [List.drop_length]

theorem spliceFoldShift_split (e : Nat) :
    ∀ (reps : List Replacement) (base : Nat) (lines : List String),
      base ≤ e → e - base ≤ lines.length →
      (∀ q ∈ reps, e + 1 ≤ q.startLine) →
      spliceFoldShift base reps lines =
        lines.take (e - base) ++ spliceFoldShift e reps (lines.drop (e - base)) := by
  intro reps
  induction reps with
  | nil =>
    intro base lines h1 h2 h3
    simp [spliceFoldShift]
  | cons q rest ih =>
    intro base lines h1 h2 h3
    have hq := h3 q (List.mem_cons_self q rest)
    rw [spliceFoldShift_cons, spliceFoldShift_cons,
      ih base lines h1 h2 (fun p hp => h3 p (List.mem_cons_of_mem q hp))]
    have hAlen : (lines.take (e - base)).length = e - base := by
      rw [List.length_take]; omega
    rw [splice_append_right _ _ _ _ _ (by rw [hAlen]; omega)]
    have hidx : q.startLine - 1 - base - (lines.take (e - base)).length =
        q.startLine - 1 - e := by
      rw [hAlen]; omega
    rw [hidx]

theorem spliceFoldShift_eq_replaceSpans :
    ∀ (reps : List Replacement) (base : Nat) (lines : List String),
      List.Pairwise (fun a b => a.endLine < b.startLine) reps →
      (∀ q ∈ reps, base + 1 ≤ q.startLine ∧ q.startLine ≤ q.endLine ∧
        q.endLine ≤ base + lines.length) →
      spliceFoldShift base reps lines = replaceSpansFrom reps base lines := by
  intro reps
  induction reps with
  | nil => intro base lines _ _; rfl
  | cons r rest ih =>
    intro base lines hpw hb
    obtain ⟨hr1, hr2, hr3⟩ := hb r (List.mem_cons_self r rest)
    rw [List.pairwise_cons] at hpw
    have hrest : ∀ q ∈ rest, r.endLine + 1 ≤ q.startLine := fun q hq => hpw.1 q hq
    rw [spliceFoldShift_cons,
      spliceFoldShift_split r.endLine rest base lines (by omega) (by omega) hrest]
    have hAlen : (lines.take (r.endLine - base)).length = r.endLine - base := by
      rw [List.length_take]; omega
    rw [splice_append_left _ _ _ _ _ (by rw [hAlen]; omega) (by rw [hAlen]; omega)]
    rw [List.take_take]
    have hmin : min (r.startLine - 1 - base) (r.endLine - base) =
        r.startLine - 1 - base := by omega
    rw [hmin]
    rw [ih r.endLine (lines.drop (r.endLine - base)) hpw.2 ?_]
    · rfl
    · intro q hq
      obtain ⟨a, b, c⟩ := hb q (List.mem_cons_of_mem r hq)
      refine ⟨hrest q hq, b, ?_⟩
      rw [List.length_drop]
      omega

/-- For every source document, target slug and requested index set, the
descending-order splice application performed on the line array equals the
transparent ascending walk `replaceSpansFrom`, and the selected spans are
pairwise disjoint in ascending order. -/
theorem applyReplacements_spec (content targetSlug : String)
    (requested : List Nat) :
    applyReplacements (splitLines content)
        ((selectedSectionsFor (collectSections content)
          (uniqueSortedIndices requested)).map
          (sectionReplacement (splitLines content) targetSlug)) =
      replaceSpansFrom
        ((selectedSectionsFor (collectSections content)
          (uniqueSortedIndices requested)).map
          (sectionReplacement (splitLines content) targetSlug)) 0 (splitLines content) ∧
    List.Pairwise (fun a b => a.endLine < b.startLine)
      ((selectedSectionsFor (collectSections content)
        (uniqueSortedIndices requested)).map
        (sectionReplacement (splitLines content) targetSlug)) := by
  obtain ⟨hpw, hb, hst⟩ := reps_facts content targetSlug requested
  refine ⟨?_, hpw⟩
  rw [applyReplacements_eq_spliceFoldShift _ _ hst]
  refine spliceFoldShift_eq_replaceSpans _ 0 _ hpw ?_
  intro q hq
  obtain ⟨a, b, c⟩ := hb q hq
  exact ⟨by omega, b, by omega⟩

/-- C3: for every source document and requested index set, the
descending-start-line splice application that `extractSectionsToNote`
performs on the line array equals the transparent ascending walk
`replaceSpansFrom`, which keeps every unselected line unchanged and in
order and replaces exactly each selected section's
`[startLine, blockEndLine]` span by its own single link line — so no
pending replacement's line numbers are invalidated by an earlier one —
the selected spans are pairwise disjoint in ascending order, and on every
successful run (source resolved and readable, non-empty slug, sections
selected and matching, target distinct from the source) the source file
`extractSectionsToNote` writes holds exactly that result. -/
theorem extractSections_descending_splices (paths : JournalPaths) (fs : FS)
    (o : ExtractSectionsOptions) (r : ResolvedSource) (sourceContent : String)
    (hres : resolveSourcePath paths o.source = some r)
    (hslug : ¬normalizeNoteSlug paths o.slug = "")
    (hread : fs r.sourcePath = some sourceContent)
    (huniq : ¬uniqueSortedIndices o.sections = [])
    (hsel : ¬selectedSectionsFor (collectSections sourceContent)
      (uniqueSortedIndices o.sections) = [])
    (htarget : r.sourcePath ≠ notePathForSlug paths (normalizeNoteSlug paths o.slug)) :
    applyReplacements (splitLines sourceContent)
        ((selectedSectionsFor (collectSections sourceContent)
          (uniqueSortedIndices o.sections)).map
          (sectionReplacement (splitLines sourceContent)
            (normalizeNoteSlug paths o.slug))) =
      replaceSpansFrom
        ((selectedSectionsFor (collectSections sourceContent)
          (uniqueSortedIndices o.sections)).map
          (sectionReplacement (splitLines sourceContent)
            (normalizeNoteSlug paths o.slug))) 0 (splitLines sourceContent) ∧
    List.Pairwise (fun a b => a.endLine < b.startLine)
      ((selectedSectionsFor (collectSections sourceContent)
        (uniqueSortedIndices o.sections)).map
        (sectionReplacement (splitLines sourceContent)
          (normalizeNoteSlug paths o.slug))) ∧
    (extractSectionsToNote paths fs o).1 r.sourcePath =
      some (joinLines (replaceSpansFrom
        ((selectedSectionsFor (collectSections sourceContent)
          (uniqueSortedIndices o.sections)).map
          (sectionReplacement (splitLines sourceContent)
            (normalizeNoteSlug paths o.slug))) 0 (splitLines sourceContent))) := by
  obtain ⟨heq, hpw⟩ :=
    applyReplacements_spec sourceContent (normalizeNoteSlug paths o.slug) o.sections
  refine ⟨heq, hpw, ?_⟩
  by_cases hblank : jsTrim (extractedSectionsText (splitLines sourceContent)
      (selectedSectionsFor (collectSections sourceContent)
        (uniqueSortedIndices o.sections))) = ""
  · simp [extractSectionsToNote, hres, hslug, hread, huniq, hsel, hblank, fsWrite, heq]
  · simp [extractSectionsToNote, hres, hslug, hread, huniq, hsel, hblank,
      appendToTarget_other _ _ _ _ _ htarget, fsWrite, heq]

/-- The C3 witness file system: only the entry `2024-01-01` exists and holds
the two-section scenario document. -/
def fsSections : FS :=
  fun q => if q = "/h/journal/2024-01-01.md" then some "Intro\n\n---\n\nBody line\n" else none

/-- Witness for C3: extracting sections 1 and 2 of the scenario document
rewrites the source to exactly the two link lines separated by the gap
line, newline terminated. -/
theorem extractSections_descending_splices_witness :
    (extractSectionsToNote (journalPathsOf "/h") fsSections ⟨"2024-01-01", [1, 2], "n"⟩).1
        "/h/journal/2024-01-01.md" =
      some "[n](notes/n.md)\n\n[n](notes/n.md)\n" := by
  have h := (extractSections_descending_splices (journalPathsOf "/h") fsSections
    ⟨"2024-01-01", [1, 2], "n"⟩ ⟨"/h/journal/2024-01-01.md", .entry "2024-01-01"⟩
    "Intro\n\n---\n\nBody line\n" (by decide) (by decide) rfl (by decide)
    (by decide) (by decide)).2.2
  rw [h]
  decide

end LM
